import Mathlib

/-!
Shallow embedding of the HL7_Spec_Extractor core (src/aggregator.py,
src/sequence_profiler.py, src/hl7_fields.py) and proofs about it.

Python dicts are modeled as insertion-ordered association lists, Python
sets (only ever used for membership and single-element iteration) as
insertion-ordered duplicate-free lists, and Counter as an
insertion-ordered association list from keys to counts.  Python string
primitives are modeled on their ASCII fragment (the corpus data is
ASCII).
-/

namespace HL7Spec

/-- Insertion-ordered association list modeling a Python `dict` with string
keys (the generic operations below also serve tuple-keyed dicts). -/
abbrev Dict (α : Type) := List (String × α)

/-- `d.get(k)`: first binding wins (reachable dicts never have duplicate keys). -/
def dlookup {κ α : Type} [DecidableEq κ] : List (κ × α) → κ → Option α
  | [], _ => none
  | (k, v) :: rest, key => if k = key then some v else dlookup rest key

/-- `k in d`. -/
def dcontains {κ α : Type} [DecidableEq κ] (d : List (κ × α)) (k : κ) : Bool :=
  (dlookup d k).isSome

/-- `d[k] = v`: overwrite in place if the key exists, else append (Python
insertion-order semantics). -/
def dset {κ α : Type} [DecidableEq κ] : List (κ × α) → κ → α → List (κ × α)
  | [], key, v => [(key, v)]
  | (k, w) :: rest, key, v =>
    if k = key then (k, v) :: rest else (k, w) :: dset rest key v

/-- `d.get(k, dflt)`. -/
def dGetD {κ α : Type} [DecidableEq κ] (d : List (κ × α)) (k : κ) (dflt : α) : α :=
  (dlookup d k).getD dflt

/-- `d.pop(k)` (the removal part; reachable call sites always have the key). -/
def dpop {κ α : Type} [DecidableEq κ] : List (κ × α) → κ → List (κ × α)
  | [], _ => []
  | (k, v) :: rest, key => if k = key then rest else (k, v) :: dpop rest key

/-- Python set used only via membership test and insertion: insertion-ordered
duplicate-free list. -/
def sadd (s : List String) (x : String) : List String :=
  if x ∈ s then s else s ++ [x]

/-- Python's ASCII whitespace (str.strip also strips some Unicode
whitespace, not modeled; the corpus data is ASCII). -/
def pyWS (c : Char) : Bool :=
  c == ' ' || c == '\t' || c == '\n' || c == '\r' || c == '\x0b' || c == '\x0c'

/-- Python `str.strip()` (ASCII fragment). -/
def pystrip (s : String) : String :=
  ⟨((s.data.dropWhile pyWS).reverse.dropWhile pyWS).reverse⟩

/-- A decoded HL7 field value as produced by the parser: a string leaf or a
nested list (components / subcomponents / repetitions). -/
inductive FV where
  | s : String → FV
  | l : List FV → FV

/-- `"^".join(tokens)` (recursive form of the separator join). -/
def pyJoinCaret : List String → String
  | [] => ""
  | [x] => x
  | x :: xs => x ++ "^" ++ pyJoinCaret xs

/-- `str.strip("^")` on the character list. -/
def stripCaretsL (l : List Char) : List Char :=
  ((l.dropWhile (· == '^')).reverse.dropWhile (· == '^')).reverse

/-- `str.strip("^")`. -/
def stripCarets (s : String) : String := ⟨stripCaretsL s.data⟩

mutual
/-- `flatten_list` (aggregator.py): recursively flatten nested lists to
individually stripped strings. -/
def flatten_list : List FV → List String
  | [] => []
  | x :: rest => flattenFV x ++ flatten_list rest

/-- One item of `flatten_list`'s loop body. -/
def flattenFV : FV → List String
  | .s v => [pystrip v]
  | .l vs => flatten_list vs
end

/-- `normalize_value` (aggregator.py): join flattened leaves with `^` and strip
the separator from both ends; plain scalars are stripped. -/
def normalize_value : FV → String
  | .l vs => stripCarets (pyJoinCaret (flatten_list vs))
  | .s v => pystrip v

mutual
/-- `collapse_complex_components` (aggregator.py). -/
def collapse_complex_components : FV → String
  | .s v => pystrip v
  | .l vs => stripCarets (pyJoinCaret (collapseList vs))

/-- The list comprehension inside `collapse_complex_components`. -/
def collapseList : List FV → List String
  | [] => []
  | x :: rest =>
    (match x with
      | .l _ => collapse_complex_components x
      | .s v => pystrip v) :: collapseList rest
end

/-- `MAX_UNIQUE` (aggregator.py). -/
def MAX_UNIQUE : Nat := 100

/-- The sentinel key stored on overflow. -/
def TOO_MANY : String := "__TOO_MANY__"

/-- `FieldStats` (aggregator.py): a `Counter` of canonical values, a presence
counter and the one-way `_frozen` flag. -/
structure FieldStats where
  values : List (String × Nat)
  presence_count : Nat
  frozen : Bool
deriving DecidableEq, Repr

/-- `FieldStats.__init__`. -/
def FieldStats.init : FieldStats := ⟨[], 0, false⟩

/-- `Counter[value] += 1`: increment in place if present, else append with
count 1. -/
def counterAdd : List (String × Nat) → String → List (String × Nat)
  | [], k => [(k, 1)]
  | (k', n) :: rest, k =>
    if k' = k then (k', n + 1) :: rest else (k', n) :: counterAdd rest k

/-- `FieldStats.add_value`. -/
def FieldStats.add_value (st : FieldStats) (v : String) : FieldStats :=
  if st.frozen then st
  else if st.values.length < MAX_UNIQUE then
    { st with values := counterAdd st.values v }
  else
    { st with values := [(TOO_MANY, 1)], frozen := true }

/-- `FieldStats.mark_present`. -/
def FieldStats.mark_present (st : FieldStats) : FieldStats :=
  { st with presence_count := st.presence_count + 1 }

/-- `process_field_value` (aggregator.py). -/
def process_field_value (value : FV) (field_path : String) (stats : FieldStats)
    (seen_fields : List String) (segment_name : String) :
    FieldStats × List String :=
  if stats.frozen then (stats, seen_fields)
  else
    let normalized := normalize_value value
    let field_key := segment_name ++ "." ++ field_path
    if normalized = "" then (stats, seen_fields)
    else
      let p :=
        if field_key ∈ seen_fields then (stats, seen_fields)
        else (stats.mark_present, seen_fields ++ [field_key])
      (p.1.add_value normalized, p.2)

/-! ## Decoded messages (interface produced by hl7_parser.py) -/

/-- One decoded segment. -/
structure Segment where
  name : String
  fields : List FV
  repeating_fields : List String

/-- One decoded message; the input stream is a `List (Option Message)` since
the decoder yields `None` for unparseable messages. -/
structure Message where
  message_type : String
  segments : List Segment

/-! ## Sequence profiler (sequence_profiler.py) -/

/-- The per-segment record of `segments_presence`. -/
structure SegPresence where
  present_in : Nat
  repeats : Bool
deriving DecidableEq, Repr

/-- The `defaultdict` default for `segments_presence`. -/
def SegPresence.dflt : SegPresence := ⟨0, false⟩

/-- `clean_segment_name`: drop every `[`, `]`, `+` character. -/
def clean_segment_name (segment : String) : String :=
  ⟨segment.data.filter (fun c => !(c == '[' || c == ']' || c == '+'))⟩

/-- `is_subsequence`. -/
def is_subsequence (shorter longer : List String) : Bool :=
  if shorter.length ≥ longer.length then false
  else
    let i := longer.foldl
      (fun i seg =>
        if i < shorter.length ∧
            clean_segment_name (shorter.getD i "") = clean_segment_name seg then
          i + 1
        else i)
      0
    i = shorter.length

/-- `str.endswith(suffix)`, reduced to list-of-characters form. -/
def pyEndsWith (s suffix : String) : Bool :=
  List.isSuffixOf suffix.data s.data

/-- Bracket an annotated token: `[name+]` when it carries the repeat marker,
else `[name]`. -/
def bracketTok (seg clean_seg : String) : String :=
  if pyEndsWith seg "+" then "[" ++ clean_seg ++ "+]" else "[" ++ clean_seg ++ "]"

/-- `merge_with_optional_segments`.  Reads of `segments_presence[...]` are
modeled with a defaulted lookup; the source's `defaultdict` would create the
entry, which matters only for the output `segments` map and only for segment
names containing markup characters (impossible for decoded segment names). -/
def merge_with_optional_segments (longer_pattern shorter_pattern : List String)
    (segments_presence : Dict SegPresence) (total_messages : Nat) : List String :=
  let shorter_segments := shorter_pattern.map clean_segment_name
  longer_pattern.map (fun seg =>
    let clean_seg := clean_segment_name seg
    if clean_seg ∈ shorter_segments then seg
    else if (dGetD segments_presence clean_seg SegPresence.dflt).present_in
        < total_messages then
      bracketTok seg clean_seg
    else seg)

/-- The shared first/second-pass step of `find_common_structure`: append the
token if its clean name is unseen (`find_insertion_point` always returns the
length, so the second pass also appends at the end). -/
def fcsStep (st : List String × List String) (seg : String) :
    List String × List String :=
  let c := clean_segment_name seg
  if c ∈ st.2 then st else (st.1 ++ [seg], st.2 ++ [c])

/-- `find_common_structure`. -/
def find_common_structure (pattern1 pattern2 : List String)
    (segments_presence : Dict SegPresence) (total_messages : Nat) : List String :=
  let p1_segments := pattern1.map clean_segment_name
  let p2_segments := pattern2.map clean_segment_name
  let st1 := pattern1.foldl fcsStep ([], [])
  let all_segments := (pattern2.foldl fcsStep st1).1
  all_segments.map (fun seg =>
    let clean_seg := clean_segment_name seg
    if clean_seg ∈ p1_segments ∧ clean_seg ∈ p2_segments then seg
    else if (dGetD segments_presence clean_seg SegPresence.dflt).present_in
        < total_messages then
      bracketTok seg clean_seg
    else seg)

/-- `try_merge_patterns`; `none` models Python `None`. -/
def try_merge_patterns (pattern1 pattern2 : List String)
    (segments_presence : Dict SegPresence) (total_messages : Nat) :
    Option (List String) :=
  if pattern1 = pattern2 then none
  else if is_subsequence pattern1 pattern2 then
    some (merge_with_optional_segments pattern2 pattern1 segments_presence
      total_messages)
  else if is_subsequence pattern2 pattern1 then
    some (merge_with_optional_segments pattern1 pattern2 segments_presence
      total_messages)
  else
    let merged := find_common_structure pattern1 pattern2 segments_presence
      total_messages
    if merged ≠ pattern1 ∧ merged ≠ pattern2 then some merged else none

/-- Inner loop of `merge_similar_patterns`: scan the remaining pattern list,
folding mergeable patterns into the accumulator.  `if merge_result:` in the
source is false for both `None` and the (unreachable) empty list. -/
def mergeScan (segments_presence : Dict SegPresence) (total_messages : Nat)
    (pattern1 : List String) :
    List (List String × Nat) → List (List String) → List String → Nat →
    (List String × Nat × List (List String))
  | [], processed, merged_pattern, merged_count =>
    (merged_pattern, merged_count, processed)
  | (pattern2, count2) :: rest, processed, merged_pattern, merged_count =>
    if pattern2 ∈ processed then
      mergeScan segments_presence total_messages pattern1 rest processed
        merged_pattern merged_count
    else
      match try_merge_patterns pattern1 pattern2 segments_presence
          total_messages with
      | some mp =>
        if mp.isEmpty then
          mergeScan segments_presence total_messages pattern1 rest processed
            merged_pattern merged_count
        else
          mergeScan segments_presence total_messages pattern1 rest
            (processed ++ [pattern2]) mp (merged_count + count2)
      | none =>
        mergeScan segments_presence total_messages pattern1 rest processed
          merged_pattern merged_count

/-- Outer loop of `merge_similar_patterns` over the item list. -/
def mergeOuter (segments_presence : Dict SegPresence) (total_messages : Nat) :
    List (List String × Nat) → List (List String) →
    List (List String × Nat) → List (List String × Nat)
  | [], _, merged => merged
  | (pattern1, count1) :: rest, processed, merged =>
    if pattern1 ∈ processed then
      mergeOuter segments_presence total_messages rest processed merged
    else
      let r := mergeScan segments_presence total_messages pattern1 rest
        (processed ++ [pattern1]) pattern1 count1
      mergeOuter segments_presence total_messages rest r.2.2
        (dset merged r.1 r.2.1)

/-- `merge_similar_patterns`. -/
def merge_similar_patterns (patterns : List (List String × Nat))
    (segments_presence : Dict SegPresence) (total_messages : Nat) :
    List (List String × Nat) :=
  mergeOuter segments_presence total_messages patterns [] []

/-- State of the per-message canonicalization loop: current collapsed order,
`segment_occurrences`, `unique_segments_this_message`, `segments_presence`. -/
structure CanonSt where
  segment_order : List String
  occurrences : Dict Nat
  uniq : List String
  presence : Dict SegPresence

/-- Loop body over one segment of a message (profile_sequences_for_type). -/
def canonStep (st : CanonSt) (segment : Segment) : CanonSt :=
  let seg_name := segment.name
  let occurrences := dset st.occurrences seg_name
    (dGetD st.occurrences seg_name 0 + 1)
  let (uniq, presence) :=
    if seg_name ∈ st.uniq then (st.uniq, st.presence)
    else
      (st.uniq ++ [seg_name],
        let cur := dGetD st.presence seg_name SegPresence.dflt
        dset st.presence seg_name { cur with present_in := cur.present_in + 1 })
  let presence :=
    if dGetD occurrences seg_name 0 > 1 then
      let cur := dGetD presence seg_name SegPresence.dflt
      dset presence seg_name { cur with repeats := true }
    else presence
  let segment_order :=
    if st.segment_order = [] ∨ st.segment_order.getLast? ≠ some seg_name then
      st.segment_order ++ [seg_name]
    else st.segment_order
  ⟨segment_order, occurrences, uniq, presence⟩

/-- The canonicalization pass: produces `segments_presence` and the
`canonical_sequences` list (one tuple per non-`None` message). -/
def canonFold (messages : List (Option Message)) :
    Dict SegPresence × List (List String) :=
  messages.foldl
    (fun st msg? =>
      match msg? with
      | none => st
      | some msg =>
        let inner := msg.segments.foldl canonStep ⟨[], [], [], st.1⟩
        (inner.presence, st.2 ++ [inner.segment_order]))
    ([], [])

/-- `Counter` over canonical sequences, in first-occurrence order. -/
def countSeqs (seqs : List (List String)) : List (List String × Nat) :=
  seqs.foldl (fun c s => dset c s (dGetD c s 0 + 1)) []

/-- The annotation pass: suffix `+` on every token whose segment repeats
somewhere in the category; entries are written with dict-overwrite
semantics. -/
def annotateSeqs (segments_presence : Dict SegPresence)
    (counts : List (List String × Nat)) : List (List String × Nat) :=
  counts.foldl
    (fun acc sc =>
      let ann := sc.1.map (fun seg =>
        if (dGetD segments_presence seg SegPresence.dflt).repeats then
          seg ++ "+"
        else seg)
      dset acc ann sc.2)
    []

/-- Round-half-to-even of the exact fraction `num / den` (`den > 0`),
modeling Python `round` on an exactly-representable value. -/
def roundHalfEvenFrac (num den : ℤ) : ℤ :=
  let f := Int.fdiv num den
  let rem2 := 2 * (num - f * den)
  if rem2 < den then f
  else if den < rem2 then f + 1
  else if f % 2 = 0 then f else f + 1

/-- `round(count / total_messages * 100, 1)`, recorded exactly in tenths of
a percent: Python's one-decimal float equals `percentTenths count total / 10`
whenever the intermediate float arithmetic is exact (floats are not modeled;
every percentage the claims mention is of this exact kind).  The source
raises `ZeroDivisionError` for `total = 0`, which is unreachable because a
zero total means there is no pattern entry to compute a percentage for. -/
def percentTenths (count total : Nat) : ℤ :=
  roundHalfEvenFrac ((count : ℤ) * 1000) (total : ℤ)

/-- One entry of `common_sequences`; `percent_tenths` carries the percentage
in tenths (so Python's `100.0` is `1000`). -/
structure SeqEntry where
  sequence : List String
  count : Nat
  percent_tenths : ℤ
deriving DecidableEq, Repr

/-- Stable insertion of an entry after all entries with `count ≥` its own,
so that the fold below is Python's stable `sort(key=count, reverse=True)`. -/
def insByCountDesc (acc : List SeqEntry) (x : SeqEntry) : List SeqEntry :=
  match acc with
  | [] => [x]
  | y :: ys => if y.count ≥ x.count then y :: insByCountDesc ys x else x :: y :: ys

/-- Python's stable descending sort by `count`. -/
def sortByCountDesc (l : List SeqEntry) : List SeqEntry :=
  l.foldl insByCountDesc []

/-- The result record of `profile_sequences_for_type`. -/
structure SeqProfile where
  common_sequences : List SeqEntry
  segments : Dict SegPresence
  total_messages : Nat
deriving DecidableEq, Repr

/-- `profile_sequences_for_type`. -/
def profile_sequences_for_type (messages : List (Option Message)) : SeqProfile :=
  let total_messages := messages.length
  let cf := canonFold messages
  let segments_presence := cf.1
  let sequence_counts := countSeqs cf.2
  let annotated_sequences := annotateSeqs segments_presence sequence_counts
  let merged_patterns :=
    merge_similar_patterns annotated_sequences segments_presence total_messages
  let final_sequences := merged_patterns.map (fun pc =>
    let final_pattern := pc.1.map (fun seg =>
      let base_seg := clean_segment_name seg
      let is_repeat := pyEndsWith seg "+"
      let is_optional :=
        (dGetD segments_presence base_seg SegPresence.dflt).present_in
          < total_messages
      if is_optional ∧ is_repeat then "[" ++ base_seg ++ "+]"
      else if is_optional then "[" ++ base_seg ++ "]"
      else seg)
    { sequence := final_pattern, count := pc.2,
      percent_tenths := percentTenths pc.2 total_messages })
  { common_sequences := sortByCountDesc final_sequences,
    segments := segments_presence,
    total_messages := total_messages }

/-- `profile_sequences_by_message_type`: group the non-`None` messages by
`message_type` (defaultdict-of-list insertion order) and profile each group. -/
def groupByType (messages : List (Option Message)) :
    List (String × List (Option Message)) :=
  messages.foldl
    (fun acc msg? =>
      match msg? with
      | none => acc
      | some m =>
        match dlookup acc m.message_type with
        | some l => dset acc m.message_type (l ++ [some m])
        | none => acc ++ [(m.message_type, [some m])])
    []

/-- `profile_sequences_by_message_type`. -/
def profile_sequences_by_message_type (messages : List (Option Message)) :
    List (String × SeqProfile) :=
  (groupByType messages).map (fun g => (g.1, profile_sequences_for_type g.2))

/-! ## Vocabulary lookups (hl7_fields.py, backed by external JSON tables)

The vocabulary files are data external to the repository, so the lookups are
parameters of the embedding. -/

/-- The two vocabulary functions the aggregator consumes:
`fieldTypeOf key` models `field_vocab.get(key, {}).get("field_type", "")`
for a `"SEG.base"` key, and `isComplexOf t` models
`t in datatype_vocab and isinstance(datatype_vocab.get(t), dict)`. -/
structure Vocab where
  fieldTypeOf : String → String
  isComplexOf : String → Bool

/-- `field_path.split(".")[0]`: the characters before the first dot. -/
def baseOf (field_path : String) : String :=
  ⟨field_path.data.takeWhile (fun c => !(c == '.'))⟩

/-- `field_datatype` (hl7_fields.py). -/
def field_datatype (V : Vocab) (segment field_path : String) : String :=
  V.fieldTypeOf (segment ++ "." ++ baseOf field_path)

/-! ## `_datatype_cache` and unified field processing (aggregator.py) -/

/-- The module-level `_datatype_cache`.  The source keeps datatype strings
(under `f"{seg}.{path}"` keys) and `is_complex_type` booleans (under bare
type-code keys) in one dict; the two key shapes are disjoint in every
reachable execution, so the cache is modeled as two components.  The
datatype component is keyed by the `(segment, path)` pair rather than the
concatenated string: at every call site the `path` component is a dot-free
string (a decimal field index or a `split('.')[0]` base), which makes the
concatenated key decompose uniquely, so the two keyings coincide on all
reachable executions. -/
structure DCache where
  dt : List ((String × String) × String)
  cx : Dict Bool

/-- The cache at interpreter start. -/
def DCache.empty : DCache := ⟨[], []⟩

/-- The `if cache_key not in _datatype_cache: ... = field_datatype(...)`
pattern used by `process_field_unified` and
`consolidate_single_component_fields`. -/
def cachedFieldDatatype (V : Vocab) (cache : DCache) (seg path : String) :
    String × DCache :=
  match dlookup cache.dt (seg, path) with
  | some v => (v, cache)
  | none =>
    let v := field_datatype V seg path
    (v, { cache with dt := dset cache.dt (seg, path) v })

/-- `is_complex_type` (aggregator.py) with its memo cache.  The
`datatype_vocab` import always succeeds in the shipped layout, so the
hardcoded fallback list is dead code. -/
def is_complex_type (V : Vocab) (cache : DCache) (hl7_type : String) :
    Bool × DCache :=
  match dlookup cache.cx hl7_type with
  | some b => (b, cache)
  | none =>
    let r := V.isComplexOf hl7_type
    (r, { cache with cx := dset cache.cx hl7_type r })

/-- `field_stats`: category → segment → field-path → FieldStats, with
`defaultdict` levels. -/
abbrev FSTree := Dict (Dict (Dict FieldStats))

/-- Read `field_stats[t][s][p]` (default-constructing reads are always
followed by a write-back in the source, modeled by `fsSet`). -/
def fsGet (fs : FSTree) (t s p : String) : FieldStats :=
  dGetD (dGetD (dGetD fs t []) s []) p FieldStats.init

/-- Write `field_stats[t][s][p]`, creating the `defaultdict` levels. -/
def fsSet (fs : FSTree) (t s p : String) (v : FieldStats) : FSTree :=
  dset fs t (dset (dGetD fs t []) s (dset (dGetD (dGetD fs t []) s []) p v))

/-- Python truthiness of `component or str(component).strip()` in
`process_field_unified`: false exactly for the empty string — a list, even
an empty one, stringifies to a nonblank bracketed repr. -/
def componentGuard : FV → Bool
  | .s v => v ≠ "" || pystrip v ≠ ""
  | .l _ => true

/-- `process_complex_field_collapsed` (aggregator.py). -/
def process_complex_field_collapsed (value : FV) (field_path : String)
    (stats : FieldStats) (seen_fields : List String) (segment_name : String) :
    FieldStats × List String :=
  match value with
  | .l rs =>
    if rs.all (fun r => match r with | .l _ => true | .s _ => false) then
      rs.foldl
        (fun (st : FieldStats × List String) rep =>
          let collapsed := collapse_complex_components rep
          if collapsed ≠ "" then
            process_field_value (.s collapsed) field_path st.1 st.2 segment_name
          else st)
        (stats, seen_fields)
    else
      let collapsed := collapse_complex_components (.l rs)
      if collapsed ≠ "" then
        process_field_value (.s collapsed) field_path stats seen_fields
          segment_name
      else (stats, seen_fields)
  | .s v =>
    let collapsed := collapse_complex_components (.s v)
    if collapsed ≠ "" then
      process_field_value (.s collapsed) field_path stats seen_fields
        segment_name
    else (stats, seen_fields)

/-- The component loop of `process_field_unified` (`enumerate(repetition)`,
1-based component paths). -/
def processComponents (comps : List FV) (base_path msg_type seg_name : String)
    (st : FSTree × List String) : FSTree × List String :=
  comps.enum.foldl
    (fun st2 ic =>
      if componentGuard ic.2 then
        let component_path := base_path ++ "." ++ toString (ic.1 + 1)
        let stats := fsGet st2.1 msg_type seg_name component_path
        let r := process_field_value ic.2 component_path stats st2.2 seg_name
        (fsSet st2.1 msg_type seg_name component_path r.1, r.2)
      else st2)
    st

/-- Loop body of `process_field_unified` over one repetition: break a
list-shaped value into components, wrap a scalar as component `.1`, or
record the whole value at the base path. -/
def pfuStep (should_break_components : Bool) (base_path msg_type seg_name : String)
    (st : FSTree × List String) (repetition : FV) : FSTree × List String :=
  if should_break_components then
    match repetition with
    | .l comps => processComponents comps base_path msg_type seg_name st
    | .s v =>
      if componentGuard (.s v) then
        let component_path := base_path ++ ".1"
        let stats := fsGet st.1 msg_type seg_name component_path
        let pr := process_field_value (.s v) component_path stats st.2 seg_name
        (fsSet st.1 msg_type seg_name component_path pr.1, pr.2)
      else st
  else
    let stats := fsGet st.1 msg_type seg_name base_path
    let pr := process_field_value repetition base_path stats st.2 seg_name
    (fsSet st.1 msg_type seg_name base_path pr.1, pr.2)

/-- `process_field_unified` (aggregator.py). -/
def process_field_unified (V : Vocab) (field_value : FV) (base_path : String)
    (field_stats : FSTree) (msg_type seg_name : String)
    (seen_fields : List String) (is_repeating : Bool) (cache : DCache) :
    FSTree × List String × DCache :=
  let hc := cachedFieldDatatype V cache seg_name base_path
  let hl7_type := hc.1
  let cache := hc.2
  if (hl7_type = "XCN" ∨ hl7_type = "PPN") ∧ is_repeating = false then
    let stats := fsGet field_stats msg_type seg_name base_path
    let r := process_complex_field_collapsed field_value base_path stats
      seen_fields seg_name
    (fsSet field_stats msg_type seg_name base_path r.1, r.2, cache)
  else
    let bc := is_complex_type V cache hl7_type
    let should_break_components := bc.1
    let cache := bc.2
    let repetitions :=
      if is_repeating then
        match field_value with
        | .l vs => vs
        | .s v => [FV.s v]
      else [field_value]
    let r := repetitions.foldl
      (pfuStep should_break_components base_path msg_type seg_name)
      (field_stats, seen_fields)
    (r.1, r.2, cache)

/-! ## Aggregation (aggregator.py, `aggregate_data`) -/

/-- `repeat_tracker`. -/
abbrev RepTracker := Dict (Dict (List String))

/-- Mutable state of the aggregation loop. -/
structure AggState where
  field_stats : FSTree
  repeat_tracker : RepTracker
  totals_by_type : Dict Nat
  cache : DCache

/-- The per-field loop body of `aggregate_data` (fields are enumerated from
1; the repeat tracker is updated and the field processed with the matching
`is_repeating` flag). -/
def processField (V : Vocab) (msg_type : String) (segment : Segment)
    (st : AggState × List String) (iv : Nat × FV) : AggState × List String :=
  let base_path := toString (iv.1 + 1)
  let isRep := base_path ∈ segment.repeating_fields
  let rt :=
    if isRep then
      let inner := dGetD st.1.repeat_tracker msg_type []
      dset st.1.repeat_tracker msg_type
        (dset inner segment.name (sadd (dGetD inner segment.name []) base_path))
    else st.1.repeat_tracker
  let r := process_field_unified V iv.2 base_path st.1.field_stats msg_type
    segment.name st.2 isRep st.1.cache
  (⟨r.1, rt, st.1.totals_by_type, r.2.2⟩, r.2.1)

/-- Processing of one decoded message inside `aggregate_data`: reset the
per-message `seen_fields` set, bump the per-category total, then walk all
segments and fields. -/
def processMessage (V : Vocab) (st : AggState) (msg : Message) : AggState :=
  let st := { st with
    totals_by_type := dset st.totals_by_type msg.message_type
      (dGetD st.totals_by_type msg.message_type 0 + 1) }
  let seen_fields : List String := []
  (msg.segments.foldl
    (fun acc segment => segment.fields.enum.foldl
      (processField V msg.message_type segment) acc)
    (st, seen_fields)).1

/-- The output value tree (category → segment → field-path → Counter). -/
abbrev Spec := Dict (Dict (Dict (List (String × Nat))))

/-- The output presence tree. -/
abbrev Pres := Dict (Dict (Dict Nat))

/-- Nested dict write into the value tree. -/
def specSet (sp : Spec) (t s p : String) (v : List (String × Nat)) : Spec :=
  dset sp t (dset (dGetD sp t []) s (dset (dGetD (dGetD sp t []) s []) p v))

/-- Nested dict write into the presence tree. -/
def presSet (pr : Pres) (t s p : String) (v : Nat) : Pres :=
  dset pr t (dset (dGetD pr t []) s (dset (dGetD (dGetD pr t []) s []) p v))

/-- The output-format conversion loop of `aggregate_data`: keep only fields
with a nonempty counter, positive presence, and at least one nonblank
non-sentinel key. -/
def buildSpec (fs : FSTree) : Spec × Pres :=
  fs.foldl
    (fun acc tEntry =>
      tEntry.2.foldl
        (fun acc sEntry =>
          sEntry.2.foldl
            (fun acc pEntry =>
              let stats := pEntry.2
              if stats.values ≠ [] ∧ stats.presence_count > 0 then
                if stats.values.any
                    (fun kv => kv.1 ≠ TOO_MANY && pystrip kv.1 ≠ "") then
                  (specSet acc.1 tEntry.1 sEntry.1 pEntry.1 stats.values,
                    presSet acc.2 tEntry.1 sEntry.1 pEntry.1
                      stats.presence_count)
                else acc
              else acc)
            acc)
        acc)
    ([], [])

/-- Excluded always-composite types in
`consolidate_single_component_fields`. -/
def consolidateExcluded : List String := ["XCN", "PPN", "CX", "XAD", "XTN", "XPN"]

/-- `field_components`: group a segment bucket's field paths by base field,
in first-occurrence order. -/
def groupComponents (fields : Dict (List (String × Nat))) :
    List (String × List String) :=
  fields.foldl
    (fun acc kv =>
      let base_field := baseOf kv.1
      match dlookup acc base_field with
      | some ps => dset acc base_field (sadd ps kv.1)
      | none => acc ++ [(base_field, [kv.1])])
    []

/-- One `(base_field, paths)` step of the consolidation loop.  The
`presence[t][s].pop(component_path)` of the source raises when the key is
absent; reachable inputs always carry the same key sets in `spec` and
`presence`, and the model reads a defaulted 0 in that unreachable case. -/
def consolidateGroup (V : Vocab) (seg_name : String)
    (st : Dict (List (String × Nat)) × Dict Nat × DCache)
    (grp : String × List String) :
    Dict (List (String × Nat)) × Dict Nat × DCache :=
  let (fields, presInner, cache) := st
  let hc := cachedFieldDatatype V cache seg_name grp.1
  let hl7_type := hc.1
  let cache := hc.2
  if hl7_type ∈ consolidateExcluded then (fields, presInner, cache)
  else if grp.2.length = 1 ∧ pyEndsWith (grp.2.headD "") ".1" then
    let component_path := grp.2.headD ""
    match dlookup fields component_path with
    | some cnt =>
      if cnt ≠ [] then
        (dset (dpop fields component_path) grp.1 cnt,
          dset (dpop presInner component_path) grp.1
            (dGetD presInner component_path 0),
          cache)
      else (fields, presInner, cache)
    | none => (fields, presInner, cache)
  else (fields, presInner, cache)

/-- `consolidate_single_component_fields` over one segment bucket. -/
def consolidateBucket (V : Vocab) (seg_name : String)
    (fields : Dict (List (String × Nat))) (presInner : Dict Nat)
    (cache : DCache) : Dict (List (String × Nat)) × Dict Nat × DCache :=
  (groupComponents fields).foldl (consolidateGroup V seg_name)
    (fields, presInner, cache)

/-- Write a whole segment bucket back into the value tree (the source
mutates the bucket dict in place). -/
def specSetBucket (sp : Spec) (t s : String) (v : Dict (List (String × Nat))) :
    Spec :=
  dset sp t (dset (dGetD sp t []) s v)

/-- Write a whole segment bucket back into the presence tree. -/
def presSetBucket (pr : Pres) (t s : String) (v : Dict Nat) : Pres :=
  dset pr t (dset (dGetD pr t []) s v)

/-- `consolidate_single_component_fields` (aggregator.py). -/
def consolidate_single_component_fields (V : Vocab) (spec : Spec)
    (presence : Pres) (cache : DCache) : Spec × Pres × DCache :=
  spec.foldl
    (fun (acc : Spec × Pres × DCache) tEntry =>
      tEntry.2.foldl
        (fun (acc : Spec × Pres × DCache) sEntry =>
          let (sp, pr, cache) := acc
          let curFields := dGetD (dGetD sp tEntry.1 []) sEntry.1 []
          let curPres := dGetD (dGetD pr tEntry.1 []) sEntry.1 []
          let r := consolidateBucket V sEntry.1 curFields curPres cache
          (specSetBucket sp tEntry.1 sEntry.1 r.1,
            presSetBucket pr tEntry.1 sEntry.1 r.2.1, r.2.2))
        acc)
    (spec, presence, cache)

/-- The full result dict of `aggregate_data`. -/
structure AggResult where
  spec : Spec
  repeats : RepTracker
  presence : Pres
  total : Nat
  totals_by_type : Dict Nat
  sequence_profiles_by_type : List (String × SeqProfile)
deriving Repr

/-- `aggregate_data` (aggregator.py).  The module-level `_datatype_cache`
is threaded in and out explicitly. -/
def aggregate_data (V : Vocab) (messages : List (Option Message))
    (cache : DCache) : AggResult × DCache :=
  let st := messages.foldl
    (fun st msg? =>
      match msg? with
      | none => st
      | some m => processMessage V st m)
    ⟨[], [], [], cache⟩
  let bp := buildSpec st.field_stats
  let cr := consolidate_single_component_fields V bp.1 bp.2 st.cache
  ({ spec := cr.1,
     repeats := st.repeat_tracker,
     presence := cr.2.1,
     total := messages.length,
     totals_by_type := st.totals_by_type,
     sequence_profiles_by_type := profile_sequences_by_message_type messages },
   cr.2.2)

/-! ## Type inference (hl7_fields.py, `infer_type`)

Python's `re` digit class and case mapping are modeled on their ASCII
fragment (the corpus data is ASCII). -/

/-- `re.fullmatch(r"\d{n}", s)`. -/
def isDigitsLen (n : Nat) (s : String) : Bool :=
  s.length = n && s.data.all Char.isDigit

/-- Drop one leading sign, shared by the `[-+]?` regexes. -/
def dropSign (l : List Char) : List Char :=
  match l with
  | c :: rest => if c == '+' || c == '-' then rest else l
  | [] => l

/-- `re.fullmatch(r"[-+]?\d+", s)`. -/
def matchIntRe (s : String) : Bool :=
  let d := dropSign s.data
  !d.isEmpty && d.all Char.isDigit

/-- `re.fullmatch(r"[-+]?\d*\.\d+", s)`. -/
def matchFloatRe (s : String) : Bool :=
  let d := dropSign s.data
  match d.dropWhile Char.isDigit with
  | '.' :: frac => !frac.isEmpty && frac.all Char.isDigit
  | _ => false

/-- Python `str.replace(pat, rep)` on character lists: leftmost
non-overlapping occurrences (call sites always pass a nonempty pattern).
The fuel argument, initialized to the input length, bounds the recursion
structurally: every step consumes at least one input character. -/
def replaceAllGo (pat rep : List Char) : Nat → List Char → List Char
  | 0, l => l
  | _ + 1, [] => []
  | fuel + 1, c :: rest =>
    if pat ≠ [] ∧ pat.isPrefixOf (c :: rest) then
      rep ++ replaceAllGo pat rep fuel ((c :: rest).drop pat.length)
    else c :: replaceAllGo pat rep fuel rest

/-- Python `str.replace`. -/
def pyReplace (s pat rep : String) : String :=
  ⟨replaceAllGo pat.data rep.data s.data.length s.data⟩

/-- Python `str.lower()` (ASCII fragment). -/
def pyLower (s : String) : String :=
  ⟨s.data.map Char.toLower⟩

/-- Hexadecimal digit as accepted by `int(_, 16)`. -/
def hexOk (c : Char) : Bool :=
  c.isDigit || ('a' ≤ c && c ≤ 'f') || ('A' ≤ c && c ≤ 'F')

/-- Tail of a Python numeric literal body: hex digits with single
underscores strictly between digits. -/
def hexTail : List Char → Bool
  | [] => true
  | '_' :: c :: rest => hexOk c && hexTail rest
  | ['_'] => false
  | c :: rest => hexOk c && hexTail rest

/-- Nonempty digit-led Python numeric literal body. -/
def hexBody : List Char → Bool
  | [] => false
  | c :: rest => hexOk c && hexTail rest

/-- Acceptance of Python `int(s, 16)`: optional surrounding whitespace, an
optional sign, an optional `0x`/`0X` prefix (an underscore may directly
follow the prefix), then digits with single interior underscores. -/
def pyIntHex16Ok (s : String) : Bool :=
  let t1 := dropSign (pystrip s).data
  match t1 with
  | '0' :: c :: rest =>
    if c == 'x' || c == 'X' then
      match rest with
      | '_' :: r => hexBody r
      | r => hexBody r
    else hexBody t1
  | _ => hexBody t1

/-- `str.strip("{}")`. -/
def pyStripBraces (s : String) : String :=
  ⟨((s.data.dropWhile (fun c => c == '{' || c == '}')).reverse.dropWhile
      (fun c => c == '{' || c == '}')).reverse⟩

/-- Success of `uuid.UUID(sample)`: the constructor replaces every `urn:`
and `uuid:` occurrence, strips surrounding braces, removes every hyphen,
requires exactly 32 remaining characters and then parses them with
`int(_, 16)` (the 128-bit range check cannot fail after these steps). -/
def pyUUIDOk (sample : String) : Bool :=
  let h := pyReplace (pyReplace sample "urn:" "") "uuid:" ""
  let h := pyStripBraces h
  let h := pyReplace h "-" ""
  h.length = 32 && pyIntHex16Ok h

/-- `infer_type` (hl7_fields.py): classify the first non-sentinel key; an
empty-string sample falls into the `if not sample` branch. -/
def infer_type (values : List String) : String :=
  match values.find? (fun v => v ≠ TOO_MANY) with
  | none => "unknown"
  | some sample =>
    if sample = "" then "unknown"
    else if isDigitsLen 8 sample then "yyyyMMdd"
    else if isDigitsLen 14 sample then "yyyyMMddHHmmss"
    else if isDigitsLen 12 sample then "yyyyMMddHHmm"
    else if pyUUIDOk sample then "uuid"
    else if matchIntRe sample then "int"
    else if matchFloatRe sample then "float"
    else if pyLower sample ∈ ["true", "false", "y", "n"] then "boolean"
    else "string"

/-- A whole recorded-value history for one field: fold `add_value` from the
initial state. -/
def addAll (st : FieldStats) (vs : List String) : FieldStats :=
  vs.foldl FieldStats.add_value st

/-- First-occurrence deduplication, the key order a Python `Counter` keeps. -/
def insertionDedup (l : List String) : List String :=
  l.foldl (fun acc x => if x ∈ acc then acc else acc ++ [x]) []

/-- Read a count out of the counter model. -/
def counterGet (c : List (String × Nat)) (k : String) : Nat :=
  dGetD c k 0

/-- Effect shape of one `recordValue`-style call on one field's stats with a
fixed per-message key: either nothing observable changes, or the key is
newly added to the seen-set and presence rises by exactly one. -/
def StepRel (stats : FieldStats) (seen : List String) (key : String)
    (r : FieldStats × List String) : Prop :=
  (r.2 = seen ∧ r.1.presence_count = stats.presence_count) ∨
  (key ∉ seen ∧ r.2 = seen ++ [key] ∧
    r.1.presence_count = stats.presence_count + 1)

/-- The per-message presence invariant: against a reference tree `fs0`, each
cell's presence has risen by at most one, and only if its seen-key has been
recorded. -/
def PresInv (fs0 fs : FSTree) (seen : List String) : Prop :=
  ∀ t s p, (fsGet fs t s p).presence_count ≤
    (fsGet fs0 t s p).presence_count +
      (if (s ++ "." ++ p) ∈ seen then 1 else 0)

/-- Soundness of the datatype cache: every stored entry agrees with the pure
vocabulary lookup it memoizes.  The empty cache is sound, soundness is
preserved by every cache write the aggregator performs, and under it the
cached reads equal the pure lookups. -/
def SoundCache (V : Vocab) (c : DCache) : Prop :=
  (∀ k v, dlookup c.dt k = some v → v = field_datatype V k.1 k.2) ∧
  (∀ k b, dlookup c.cx k = some b → b = V.isComplexOf k)

/-- The loop body of `groupComponents`, named for reasoning. -/
def gcStep (acc : List (String × List String))
    (kv : String × List (String × Nat)) : List (String × List String) :=
  let base_field := baseOf kv.1
  match dlookup acc base_field with
  | some ps => dset acc base_field (sadd ps kv.1)
  | none => acc ++ [(base_field, [kv.1])]

/-- The value `groupComponents` associates to a base key `q`: the dedup of
the field paths whose base is `q`, in first-occurrence order; absent when no
path has base `q`. -/
def gcSpec (keys : List String) (q : String) : Option (List String) :=
  if keys.filter (fun p => baseOf p == q) = [] then none
  else some ((keys.filter (fun p => baseOf p == q)).foldl sadd [])

/-- Two field-processing states agree on everything but the datatype cache,
and both caches are sound. -/
def PFRel (V : Vocab) (a b : AggState × List String) : Prop :=
  a.1.field_stats = b.1.field_stats ∧ a.1.repeat_tracker = b.1.repeat_tracker ∧
  a.1.totals_by_type = b.1.totals_by_type ∧ a.2 = b.2 ∧
  SoundCache V a.1.cache ∧ SoundCache V b.1.cache

/-- Two aggregation states agree on everything but the datatype cache, and
both caches are sound. -/
def AggSRel (V : Vocab) (a b : AggState) : Prop :=
  a.field_stats = b.field_stats ∧ a.repeat_tracker = b.repeat_tracker ∧
  a.totals_by_type = b.totals_by_type ∧
  SoundCache V a.cache ∧ SoundCache V b.cache

/-- Two consolidation bucket states agree on the value and presence dicts,
and both caches are sound. -/
def BucketRel (V : Vocab)
    (a b : Dict (List (String × Nat)) × Dict Nat × DCache) : Prop :=
  a.1 = b.1 ∧ a.2.1 = b.2.1 ∧ SoundCache V a.2.2 ∧ SoundCache V b.2.2

/-- Two consolidation tree states agree on the spec and presence trees, and
both caches are sound. -/
def ConsRel (V : Vocab) (a b : Spec × Pres × DCache) : Prop :=
  a.1 = b.1 ∧ a.2.1 = b.2.1 ∧ SoundCache V a.2.2 ∧ SoundCache V b.2.2

/-- The message loop of `aggregate_data`, named for reasoning. -/
def aggFold (V : Vocab) (messages : List (Option Message)) (cache : DCache) :
    AggState :=
  messages.foldl
    (fun st msg? =>
      match msg? with
      | none => st
      | some m => processMessage V st m)
    ⟨[], [], [], cache⟩

/-- Total of the counts in a final pattern list. -/
def sumCounts (l : List SeqEntry) : Nat := (l.map (fun e => e.count)).sum

/-- Total of the counts in a pattern dict. -/
def sumVals {α : Type} (l : List (α × Nat)) : Nat := (l.map Prod.snd).sum

/-! # Theorems -/

/-- A message consisting of named segments only (fields are irrelevant to
sequence profiling). -/
def seqMsg (t : String) (names : List String) : Option Message :=
  some ⟨t, names.map (fun n => ⟨n, [], []⟩)⟩

/-- C7: on the two-message category `[MSH, PID, OBX]`, `[MSH, PID]` the
profiler returns exactly one merged pattern `["MSH", "PID", "[OBX]"]` with
count 2 and percent 100.0: OBX (present in 1 of 2 messages) is bracketed
optional, MSH and PID stay mandatory. -/
theorem c7_scenario_b :
    profile_sequences_for_type
        [seqMsg "ADT" ["MSH", "PID", "OBX"], seqMsg "ADT" ["MSH", "PID"]] =
      { common_sequences :=
          [{ sequence := ["MSH", "PID", "[OBX]"], count := 2, percent_tenths := 1000 }],
        segments :=
          [("MSH", ⟨2, false⟩), ("PID", ⟨2, false⟩), ("OBX", ⟨1, false⟩)],
        total_messages := 2 } ∧
    profile_sequences_by_message_type
        [seqMsg "ADT" ["MSH", "PID", "OBX"], seqMsg "ADT" ["MSH", "PID"]] =
      [("ADT",
        { common_sequences :=
            [{ sequence := ["MSH", "PID", "[OBX]"], count := 2, percent_tenths := 1000 }],
          segments :=
            [("MSH", ⟨2, false⟩), ("PID", ⟨2, false⟩), ("OBX", ⟨1, false⟩)],
          total_messages := 2 })] := by
  constructor <;> rfl

theorem flatten_list_append (a b : List FV) :
    flatten_list (a ++ b) = flatten_list a ++ flatten_list b := by
  induction a with
  | nil => rfl
  | cons x rest ih => simp [flatten_list, ih]

theorem stripCaretsL_cons_caret (l : List Char) :
    stripCaretsL ('^' :: l) = stripCaretsL l := by
  simp [stripCaretsL, List.dropWhile]

theorem stripCaretsL_append_caret (l : List Char) :
    stripCaretsL (l ++ ['^']) = stripCaretsL l := by
  unfold stripCaretsL
  rw [List.dropWhile_append]
  by_cases h : (l.dropWhile (· == '^')).isEmpty
  · rw [List.isEmpty_iff] at h
    simp [h, List.dropWhile]
  · simp only [h, if_false, List.reverse_append, List.reverse_cons,
      List.reverse_nil, List.nil_append, List.singleton_append,
      List.dropWhile]
    simp

theorem stripCarets_caret_append (s : String) :
    stripCarets ("^" ++ s) = stripCarets s := by
  show String.mk (stripCaretsL ("^" ++ s).data) = _
  rw [String.data_append]
  show String.mk (stripCaretsL ('^' :: s.data)) = _
  rw [stripCaretsL_cons_caret]
  rfl

theorem stripCarets_append_caret (s : String) :
    stripCarets (s ++ "^") = stripCarets s := by
  show String.mk (stripCaretsL (s ++ "^").data) = _
  rw [String.data_append]
  show String.mk (stripCaretsL (s.data ++ ['^'])) = _
  rw [stripCaretsL_append_caret]
  rfl

theorem pyJoinCaret_cons_empty (ms : List String) :
    stripCarets (pyJoinCaret ("" :: ms)) = stripCarets (pyJoinCaret ms) := by
  cases ms with
  | nil => rfl
  | cons m ms =>
    show stripCarets ("" ++ "^" ++ pyJoinCaret (m :: ms)) = _
    rw [String.empty_append, stripCarets_caret_append]

theorem pyJoinCaret_snoc_cons (x : String) (xs : List String) :
    pyJoinCaret ((x :: xs) ++ [""]) = pyJoinCaret (x :: xs) ++ "^" := by
  induction xs generalizing x with
  | nil =>
    show x ++ "^" ++ pyJoinCaret [""] = x ++ "^"
    rw [show pyJoinCaret [""] = "" from rfl, String.append_empty]
  | cons y ys ih =>
    show x ++ "^" ++ pyJoinCaret ((y :: ys) ++ [""]) = (x ++ "^" ++ pyJoinCaret (y :: ys)) ++ "^"
    rw [ih y, ← String.append_assoc]

theorem stripJoin_empty_left (es : List String) :
    ∀ ms, (∀ e ∈ es, e = "") →
      stripCarets (pyJoinCaret (es ++ ms)) = stripCarets (pyJoinCaret ms) := by
  induction es with
  | nil => intro ms _; rfl
  | cons e es ih =>
    intro ms h
    have he : e = "" := h e (List.mem_cons_self e es)
    subst he
    show stripCarets (pyJoinCaret ("" :: (es ++ ms))) = _
    rw [pyJoinCaret_cons_empty]
    exact ih ms (fun x hx => h x (List.mem_cons_of_mem _ hx))

theorem stripJoin_empty_right (es : List String) :
    ∀ ms, (∀ e ∈ es, e = "") →
      stripCarets (pyJoinCaret (ms ++ es)) = stripCarets (pyJoinCaret ms) := by
  induction es using List.reverseRecOn with
  | nil => intro ms _; rw [List.append_nil]
  | append_singleton es e ih =>
    intro ms h
    have he : e = "" := h e (by simp)
    subst he
    rw [← List.append_assoc]
    rcases hcase : ms ++ es with _ | ⟨c, t⟩
    · have hms : ms = [] := by
        rcases ms with _ | _
        · rfl
        · simp at hcase
      rw [hms]; rfl
    · rw [pyJoinCaret_snoc_cons, stripCarets_append_caret, ← hcase]
      exact ih ms (fun x hx => h x (by simp [hx]))

/-- C10: for a list-shaped field value, `normalize_value` trims each leaf,
joins all leaves depth-first with `^`, and strips separators only at the
two ends: an interior empty leaf survives as an empty token
(`['A','','B'] ↦ "A^^B"`), while leaves that flatten to empty strings at
either boundary disappear without affecting the rest. -/
theorem c10_normalize_value_list_shape :
    normalize_value (.l [.s "A", .s "", .s "B"]) = "A^^B" ∧
    normalize_value (.l [.s "", .s "A", .s ""]) = "A" ∧
    ∀ (pre mid post : List FV),
      (∀ x ∈ flatten_list pre, x = "") →
      (∀ x ∈ flatten_list post, x = "") →
      normalize_value (.l (pre ++ mid ++ post)) = normalize_value (.l mid) := by
  refine ⟨rfl, rfl, ?_⟩
  intro pre mid post hpre hpost
  show stripCarets (pyJoinCaret (flatten_list (pre ++ mid ++ post))) =
    stripCarets (pyJoinCaret (flatten_list mid))
  rw [flatten_list_append, flatten_list_append, List.append_assoc,
    stripJoin_empty_left _ _ hpre, stripJoin_empty_right _ _ hpost]

/-- Witness for C10 at concrete inputs: whitespace-only and nested-empty
boundary leaves vanish even around a caret-bearing interior value. -/
theorem c10_witness :
    (∀ x ∈ flatten_list [FV.s " ", FV.l [FV.s ""]], x = "") ∧
    (∀ x ∈ flatten_list [FV.s ""], x = "") ∧
    normalize_value
        (.l ([FV.s " ", FV.l [FV.s ""]] ++ [FV.s "A^"] ++ [FV.s ""])) =
      normalize_value (.l [FV.s "A^"]) :=
  ⟨by decide, by decide,
    c10_normalize_value_list_shape.2.2 [FV.s " ", FV.l [FV.s ""]] [FV.s "A^"]
      [FV.s ""] (by decide) (by decide)⟩

/-- C5: `infer_type` classifies the first non-sentinel key in iteration
order (not a majority vote) by the fixed chain 8-digit date, 14-digit
datetime-seconds, 12-digit datetime-minutes, UUID, int, float, boolean,
string; with no usable sample it returns "unknown".  In particular
`["abc","20230101"]` infers `string` while `["20230101","abc"]` infers
`yyyyMMdd`. -/
theorem c5_infer_type_first_sample :
    infer_type ["abc", "20230101"] = "string" ∧
    infer_type ["20230101", "abc"] = "yyyyMMdd" ∧
    infer_type [] = "unknown" ∧
    infer_type [TOO_MANY] = "unknown" ∧
    (∀ vs, infer_type (TOO_MANY :: vs) = infer_type vs) ∧
    (∀ v vs, v ≠ TOO_MANY → infer_type (v :: vs) = infer_type [v]) ∧
    (∀ s, isDigitsLen 8 s → infer_type [s] = "yyyyMMdd") ∧
    (∀ s, isDigitsLen 14 s → infer_type [s] = "yyyyMMddHHmmss") ∧
    (∀ s, isDigitsLen 12 s → infer_type [s] = "yyyyMMddHHmm") ∧
    (∀ s, s ≠ "" → ¬ isDigitsLen 8 s → ¬ isDigitsLen 14 s →
      ¬ isDigitsLen 12 s → pyUUIDOk s → s ≠ TOO_MANY →
      infer_type [s] = "uuid") ∧
    infer_type ["550e8400-e29b-41d4-a716-446655440000"] = "uuid" ∧
    infer_type ["-42"] = "int" ∧
    infer_type ["3.14"] = "float" ∧
    infer_type ["Y"] = "boolean" := by
  have hdig : ∀ s n, isDigitsLen n s = true → n ≠ 12 → s ≠ TOO_MANY := by
    intro s n h hn hs
    subst hs
    simp only [isDigitsLen, Bool.and_eq_true, decide_eq_true_eq] at h
    have hl : (TOO_MANY).length = 12 := rfl
    omega
  have hne : ∀ s n, isDigitsLen n s = true → n ≠ 0 → s ≠ "" := by
    intro s n h hn hs
    subst hs
    simp only [isDigitsLen, Bool.and_eq_true, decide_eq_true_eq] at h
    have hl : ("" : String).length = 0 := rfl
    omega
  have hd12 : ∀ s, isDigitsLen 12 s = true → s ≠ TOO_MANY := by
    intro s h hs
    subst hs
    revert h
    decide
  refine ⟨rfl, rfl, rfl, rfl, ?_, ?_, ?_, ?_, ?_, ?_, rfl, rfl, rfl, rfl⟩
  · intro vs
    simp [infer_type, List.find?]
  · intro v vs hv
    simp [infer_type, List.find?, hv]
  · intro s h
    have h1 : s ≠ TOO_MANY := hdig s 8 h (by omega)
    have h2 : s ≠ "" := hne s 8 h (by omega)
    simp [infer_type, List.find?, h1, h2, h]
  · intro s h
    have h1 : s ≠ TOO_MANY := hdig s 14 h (by omega)
    have h2 : s ≠ "" := hne s 14 h (by omega)
    have h8 : ¬ isDigitsLen 8 s := by
      simp only [isDigitsLen, Bool.and_eq_true, decide_eq_true_eq] at h ⊢
      intro hc
      omega
    simp [infer_type, List.find?, h1, h2, h, h8]
  · intro s h
    have h1 : s ≠ TOO_MANY := hd12 s h
    have h2 : s ≠ "" := hne s 12 h (by omega)
    have h8 : ¬ isDigitsLen 8 s := by
      simp only [isDigitsLen, Bool.and_eq_true, decide_eq_true_eq] at h ⊢
      intro hc
      omega
    have h14 : ¬ isDigitsLen 14 s := by
      simp only [isDigitsLen, Bool.and_eq_true, decide_eq_true_eq] at h ⊢
      intro hc
      omega
    simp [infer_type, List.find?, h1, h2, h, h8, h14]
  · intro s h0 h8 h14 h12 hu ht
    simp [infer_type, List.find?, h0, h8, h14, h12, hu, ht]

/-- Witness for C5: the hypothesis-bearing classification clauses applied at
concrete inputs. -/
theorem c5_witness :
    infer_type ["19991231"] = "yyyyMMdd" ∧
    infer_type ["19991231235959"] = "yyyyMMddHHmmss" ∧
    infer_type ["199912312359"] = "yyyyMMddHHmm" ∧
    infer_type ["550e8400e29b41d4a716446655440000"] = "uuid" ∧
    infer_type ["zzz", "19991231"] = infer_type ["zzz"] :=
  ⟨c5_infer_type_first_sample.2.2.2.2.2.2.1 "19991231" (by decide),
   c5_infer_type_first_sample.2.2.2.2.2.2.2.1 "19991231235959" (by decide),
   c5_infer_type_first_sample.2.2.2.2.2.2.2.2.1 "199912312359" (by decide),
   c5_infer_type_first_sample.2.2.2.2.2.2.2.2.2.1
     "550e8400e29b41d4a716446655440000" (by decide) (by decide) (by decide)
     (by decide) (by decide) (by decide),
   c5_infer_type_first_sample.2.2.2.2.2.1 "zzz" ["19991231"] (by decide)⟩

/-- C2: once a `FieldStats` is overflowed it is frozen for good: `add_value`
is the identity, `recordValue` (`process_field_value`) neither changes the
stats nor marks presence, `mark_present` never touches the value mapping or
the flag, no operation clears the flag, and the transition into the frozen
state itself installs exactly the one sentinel entry. -/
theorem c2_overflow_frozen_invariant :
    (∀ (st : FieldStats) (v : String),
      st.frozen = true → st.add_value v = st) ∧
    (∀ (st : FieldStats) (v : FV) (path seg : String) (seen : List String),
      st.frozen = true → process_field_value v path st seen seg = (st, seen)) ∧
    (∀ st : FieldStats,
      st.mark_present.frozen = st.frozen ∧ st.mark_present.values = st.values) ∧
    (∀ (st : FieldStats) (v : String),
      st.frozen = true → (st.add_value v).frozen = true) ∧
    (∀ (st : FieldStats) (v : String),
      st.frozen = false → (st.add_value v).frozen = true →
        (st.add_value v).values = [(TOO_MANY, 1)]) := by
  refine ⟨?_, ?_, ?_, ?_, ?_⟩
  · intro st v h
    simp [FieldStats.add_value, h]
  · intro st v path seg seen h
    simp [process_field_value, h]
  · intro st
    exact ⟨rfl, rfl⟩
  · intro st v h
    simp [FieldStats.add_value, h]
  · intro st v h hf
    simp only [FieldStats.add_value, h, Bool.false_eq_true, if_false] at hf ⊢
    by_cases hlen : st.values.length < MAX_UNIQUE
    · simp [hlen] at hf
    · simp [hlen]

/-- Witness for C2: the frozen no-ops and the destructive transition at
concrete states (one hundred distinct stored keys, then one more call). -/
theorem c2_witness :
    FieldStats.add_value ⟨[(TOO_MANY, 1)], 5, true⟩ "x" =
      ⟨[(TOO_MANY, 1)], 5, true⟩ ∧
    process_field_value (.s "x") "1" ⟨[(TOO_MANY, 1)], 5, true⟩ [] "PID" =
      (⟨[(TOO_MANY, 1)], 5, true⟩, []) ∧
    (FieldStats.add_value
        ⟨(List.range MAX_UNIQUE).map (fun i => (toString i, 1)), 7, false⟩
        "0").values = [(TOO_MANY, 1)] :=
  ⟨c2_overflow_frozen_invariant.1 _ "x" rfl,
   c2_overflow_frozen_invariant.2.1 _ (.s "x") "1" "PID" [] rfl,
   c2_overflow_frozen_invariant.2.2.2.2 _ "0" rfl (by decide)⟩

theorem counterAdd_map_fst (c : List (String × Nat)) (k : String) :
    (counterAdd c k).map Prod.fst =
      if k ∈ c.map Prod.fst then c.map Prod.fst else c.map Prod.fst ++ [k] := by
  induction c with
  | nil => simp [counterAdd]
  | cons p rest ih =>
    obtain ⟨k2, n⟩ := p
    by_cases h : k2 = k
    · subst h
      simp [counterAdd]
    · simp only [counterAdd, h, if_false, List.map_cons, List.mem_cons]
      rw [ih]
      by_cases hm : k ∈ rest.map Prod.fst
      · simp [hm, h, Ne.symm h]
      · simp [hm, h, Ne.symm h]

theorem counterAdd_length (c : List (String × Nat)) (k : String) :
    (counterAdd c k).length ≤ c.length + 1 := by
  induction c with
  | nil => simp [counterAdd]
  | cons p rest ih =>
    obtain ⟨k2, n⟩ := p
    by_cases h : k2 = k
    · subst h; simp [counterAdd]
    · simp only [counterAdd, h, if_false, List.length_cons]
      omega

theorem counterGet_counterAdd_self (c : List (String × Nat)) (k : String) :
    counterGet (counterAdd c k) k = counterGet c k + 1 := by
  induction c with
  | nil => simp [counterAdd, counterGet, dGetD, dlookup]
  | cons p rest ih =>
    obtain ⟨k2, n⟩ := p
    by_cases h : k2 = k
    · subst h; simp [counterAdd, counterGet, dGetD, dlookup]
    · simp only [counterAdd, h, if_false]
      simpa [counterGet, dGetD, dlookup, h] using ih

theorem counterGet_counterAdd_other (c : List (String × Nat)) (k k2 : String)
    (h : k2 ≠ k) : counterGet (counterAdd c k) k2 = counterGet c k2 := by
  induction c with
  | nil => simp [counterAdd, counterGet, dGetD, dlookup, Ne.symm h]
  | cons p rest ih =>
    obtain ⟨k3, n⟩ := p
    by_cases h3 : k3 = k
    · subst h3
      simp [counterAdd, counterGet, dGetD, dlookup, h, Ne.symm h]
    · simp only [counterAdd, h3, if_false]
      by_cases h2 : k3 = k2
      · subst h2; simp [counterGet, dGetD, dlookup]
      · simpa [counterGet, dGetD, dlookup, h2] using ih

theorem insertionDedup_go_mem (l : List String) :
    ∀ (acc : List String) (x : String),
      (x ∈ l.foldl (fun acc x => if x ∈ acc then acc else acc ++ [x]) acc) ↔
        (x ∈ acc ∨ x ∈ l) := by
  induction l with
  | nil => simp
  | cons y l ih =>
    intro acc x
    rw [List.foldl_cons, ih]
    by_cases hy : y ∈ acc
    · simp only [hy, if_true, List.mem_cons]
      constructor
      · rintro (h | h)
        · exact Or.inl h
        · exact Or.inr (Or.inr h)
      · rintro (h | h | h)
        · exact Or.inl h
        · exact Or.inl (h ▸ hy)
        · exact Or.inr h
    · simp only [hy, if_false, List.mem_append, List.mem_singleton,
        List.mem_cons]
      tauto

theorem mem_insertionDedup (l : List String) (x : String) :
    x ∈ insertionDedup l ↔ x ∈ l := by
  rw [insertionDedup, insertionDedup_go_mem]
  simp

theorem insertionDedup_snoc (l : List String) (v : String) :
    insertionDedup (l ++ [v]) =
      if v ∈ insertionDedup l then insertionDedup l
      else insertionDedup l ++ [v] := by
  simp [insertionDedup, List.foldl_append]

theorem addAll_snoc (st : FieldStats) (vs : List String) (v : String) :
    addAll st (vs ++ [v]) = (addAll st vs).add_value v := by
  simp [addAll]

theorem take_append_left {l1 l2 : List String} {n : Nat} (h : n ≤ l1.length) :
    (l1 ++ l2).take n = l1.take n := by
  rw [List.take_append_eq_append_take, Nat.sub_eq_zero_of_le h]
  simp

/-- The reachable-state description of a recorded-value history: while the
stats are unfrozen the stored keys are exactly the distinct values seen so
far in first-occurrence order with exact counts (and at most 100 of them);
and the stats are frozen exactly when some call happened at a moment when
100 distinct keys were already stored. -/
theorem addAll_invariant (vs : List String) :
    ((addAll FieldStats.init vs).frozen = false →
      ((addAll FieldStats.init vs).values.map Prod.fst = insertionDedup vs ∧
        (∀ k, counterGet (addAll FieldStats.init vs).values k = vs.count k) ∧
        (addAll FieldStats.init vs).values.length ≤ MAX_UNIQUE)) ∧
    ((addAll FieldStats.init vs).frozen = true ↔
      ∃ i, i < vs.length ∧ (insertionDedup (vs.take i)).length = MAX_UNIQUE) := by
  induction vs using List.reverseRecOn with
  | nil =>
    constructor
    · intro _
      refine ⟨rfl, fun k => rfl, by simp [addAll, FieldStats.init]⟩
    · simp [addAll, FieldStats.init]
  | append_singleton vs v ih =>
    rw [addAll_snoc]
    rcases Bool.eq_false_or_eq_true ((addAll FieldStats.init vs).frozen)
      with hf | hf
    case inl =>
      have hs' : (addAll FieldStats.init vs).add_value v =
          addAll FieldStats.init vs := by
        simp [FieldStats.add_value, hf]
      rw [hs']
      constructor
      · intro h
        rw [hf] at h
        cases h
      · rw [hf]
        simp only [true_iff]
        obtain ⟨i, hi, hdl⟩ := ih.2.mp hf
        refine ⟨i, ?_, ?_⟩
        · rw [List.length_append, List.length_singleton]
          omega
        · rwa [take_append_left (Nat.le_of_lt hi)]
    case inr =>
      obtain ⟨hkeys, hcnt, hlen⟩ := ih.1 hf
      have hnotex :
          ¬ ∃ i, i < vs.length ∧
            (insertionDedup (vs.take i)).length = MAX_UNIQUE := by
        intro hex
        rw [← ih.2] at hex
        rw [hf] at hex
        cases hex
      have hkl : (addAll FieldStats.init vs).values.length =
          (insertionDedup vs).length := by
        rw [← hkeys, List.length_map]
      by_cases hlt : (addAll FieldStats.init vs).values.length < MAX_UNIQUE
      · have hs' : (addAll FieldStats.init vs).add_value v =
            { addAll FieldStats.init vs with
              values := counterAdd (addAll FieldStats.init vs).values v } := by
          simp [FieldStats.add_value, hf, hlt]
        constructor
        · intro _
          refine ⟨?_, ?_, ?_⟩
          · rw [hs']
            show (counterAdd (addAll FieldStats.init vs).values v).map Prod.fst = _
            rw [counterAdd_map_fst, hkeys, insertionDedup_snoc]
          · intro k
            rw [hs']
            show counterGet (counterAdd (addAll FieldStats.init vs).values v) k = _
            by_cases hk : k = v
            · subst hk
              rw [counterGet_counterAdd_self, hcnt, List.count_append]
              simp
            · rw [counterGet_counterAdd_other _ _ _ hk, hcnt, List.count_append]
              simp [List.count_singleton, hk]
          · rw [hs']
            show (counterAdd (addAll FieldStats.init vs).values v).length ≤ _
            have := counterAdd_length (addAll FieldStats.init vs).values v
            omega
        · have hf' : ((addAll FieldStats.init vs).add_value v).frozen = false := by
            rw [hs']
            exact hf
          rw [hf']
          constructor
          · intro h; cases h
          · rintro ⟨i, hi, hdl⟩
            exfalso
            rw [List.length_append, List.length_singleton] at hi
            rcases Nat.lt_succ_iff_lt_or_eq.mp hi with hi' | hi'
            · exact hnotex ⟨i, hi', by rwa [take_append_left (Nat.le_of_lt hi')] at hdl⟩
            · subst hi'
              rw [take_append_left (Nat.le_refl _), List.take_length] at hdl
              omega
      · have h100 : (addAll FieldStats.init vs).values.length = MAX_UNIQUE := by
          omega
        have hs' : (addAll FieldStats.init vs).add_value v =
            { addAll FieldStats.init vs with
              values := [(TOO_MANY, 1)], frozen := true } := by
          simp [FieldStats.add_value, hf, hlt]
        constructor
        · intro hcontra
          rw [hs'] at hcontra
          cases hcontra
        · rw [hs']
          simp only [true_iff]
          refine ⟨vs.length, ?_, ?_⟩
          · rw [List.length_append, List.length_singleton]
            omega
          · rw [take_append_left (Nat.le_refl _), List.take_length, ← hkl, h100]

set_option maxRecDepth 8000

/-- C1 counterexample: after recording the 100 distinct values `"0"`..`"99"`,
recording `"0"` again — already a stored key, so no 101st distinct key would
be created — nevertheless fires the destructive overflow transition
(`frozen`, all counts replaced by the sentinel), contradicting "the
destructive overflow transition happens exactly when adding the value would
create the 101st distinct key". -/
theorem c1_counterexample :
    ("0" ∈ (addAll FieldStats.init
        ((List.range MAX_UNIQUE).map toString)).values.map Prod.fst) ∧
    (addAll FieldStats.init
        ((List.range MAX_UNIQUE).map toString)).frozen = false ∧
    ((addAll FieldStats.init
        ((List.range MAX_UNIQUE).map toString)).add_value "0").frozen = true ∧
    ((addAll FieldStats.init
        ((List.range MAX_UNIQUE).map toString)).add_value "0").values =
      [(TOO_MANY, 1)] := by
  decide

/-- C1 (amended): while the distinct-key count is below 100 `add_value`
increments the given value's count; the destructive overflow transition
happens exactly when `add_value` is called on an unfrozen stats already
holding 100 distinct keys — whether or not the value is one of them; hence
while unfrozen the retained keys are exactly the distinct values
encountered so far in processing order with exact counts, and the stats
freeze exactly when some call happened after 100 distinct values had been
stored. -/
theorem c1_add_value_amended :
    (∀ (st : FieldStats) (v : String), st.frozen = false →
      st.values.length < MAX_UNIQUE →
      st.add_value v = { st with values := counterAdd st.values v }) ∧
    (∀ (st : FieldStats) (v : String), st.frozen = false →
      ((st.add_value v).frozen = true ↔ MAX_UNIQUE ≤ st.values.length)) ∧
    (∀ vs : List String, (addAll FieldStats.init vs).frozen = false →
      ((addAll FieldStats.init vs).values.map Prod.fst = insertionDedup vs ∧
        ∀ k, counterGet (addAll FieldStats.init vs).values k = vs.count k)) ∧
    (∀ vs : List String,
      ((addAll FieldStats.init vs).frozen = true ↔
        ∃ i, i < vs.length ∧
          (insertionDedup (vs.take i)).length = MAX_UNIQUE)) := by
  refine ⟨?_, ?_, ?_, ?_⟩
  · intro st v hf hlt
    simp [FieldStats.add_value, hf, hlt]
  · intro st v hf
    by_cases hlt : st.values.length < MAX_UNIQUE
    · simp only [FieldStats.add_value, hf, Bool.false_eq_true, if_false,
        hlt, if_true]
      constructor
      · intro h
        exact h.elim
      · intro h
        omega
    · simp only [FieldStats.add_value, hf, Bool.false_eq_true, if_false,
        hlt, if_false]
      constructor
      · intro _
        omega
      · intro _
        trivial
  · intro vs h
    exact ⟨((addAll_invariant vs).1 h).1, ((addAll_invariant vs).1 h).2.1⟩
  · intro vs
    exact (addAll_invariant vs).2

/-- Witness for C1 (amended) at concrete inputs: a below-cap increment, the
retained-keys/count description on a short history, and the overflow firing
on the call after 100 distinct values. -/
theorem c1_witness :
    FieldStats.add_value ⟨[("a", 2)], 3, false⟩ "a" = ⟨[("a", 3)], 3, false⟩ ∧
    (addAll FieldStats.init ["a", "b", "a"]).values.map Prod.fst =
      insertionDedup ["a", "b", "a"] ∧
    counterGet (addAll FieldStats.init ["a", "b", "a"]).values "a" =
      (["a", "b", "a"] : List String).count "a" ∧
    (addAll FieldStats.init
        ((List.range MAX_UNIQUE).map toString ++ ["x"])).frozen = true := by
  refine ⟨?_, ?_, ?_, ?_⟩
  · rw [c1_add_value_amended.1 ⟨[("a", 2)], 3, false⟩ "a" rfl (by decide)]
    rfl
  · exact (c1_add_value_amended.2.2.1 ["a", "b", "a"] (by decide)).1
  · exact (c1_add_value_amended.2.2.1 ["a", "b", "a"] (by decide)).2 "a"
  · exact (c1_add_value_amended.2.2.2 _).mpr ⟨100, by decide, by decide⟩

theorem dlookup_dset_self {κ α : Type} [DecidableEq κ]
    (d : List (κ × α)) (k : κ) (v : α) : dlookup (dset d k v) k = some v := by
  induction d with
  | nil => simp [dset, dlookup]
  | cons p rest ih =>
    obtain ⟨k2, w⟩ := p
    by_cases h : k2 = k
    · subst h; simp [dset, dlookup]
    · simp [dset, dlookup, h, ih]

theorem dlookup_dset_other {κ α : Type} [DecidableEq κ]
    (d : List (κ × α)) (k k2 : κ) (v : α) (h : k ≠ k2) :
    dlookup (dset d k v) k2 = dlookup d k2 := by
  induction d with
  | nil => simp [dset, dlookup, h]
  | cons p rest ih =>
    obtain ⟨k3, w⟩ := p
    by_cases h3 : k3 = k
    · subst h3; simp [dset, dlookup, h]
    · simp [dset, dlookup, h3, ih]

theorem dGetD_dset_self {κ α : Type} [DecidableEq κ]
    (d : List (κ × α)) (k : κ) (v dflt : α) : dGetD (dset d k v) k dflt = v := by
  simp [dGetD, dlookup_dset_self]

theorem dGetD_dset_other {κ α : Type} [DecidableEq κ]
    (d : List (κ × α)) (k k2 : κ) (v dflt : α) (h : k ≠ k2) :
    dGetD (dset d k v) k2 dflt = dGetD d k2 dflt := by
  simp [dGetD, dlookup_dset_other _ _ _ _ h]

theorem fsGet_fsSet_self (fs : FSTree) (t s p : String) (v : FieldStats) :
    fsGet (fsSet fs t s p v) t s p = v := by
  simp [fsGet, fsSet, dGetD_dset_self]

theorem fsGet_fsSet_other (fs : FSTree) (t s p t2 s2 p2 : String)
    (v : FieldStats) (h : ¬(t = t2 ∧ s = s2 ∧ p = p2)) :
    fsGet (fsSet fs t s p v) t2 s2 p2 = fsGet fs t2 s2 p2 := by
  by_cases ht : t = t2
  · subst ht
    by_cases hs : s = s2
    · subst hs
      have hp : p ≠ p2 := fun hp => h ⟨rfl, rfl, hp⟩
      simp [fsGet, fsSet, dGetD_dset_self, dGetD_dset_other _ _ _ _ _ hp]
    · simp [fsGet, fsSet, dGetD_dset_self, dGetD_dset_other _ _ _ _ _ hs]
  · simp [fsGet, fsSet, dGetD_dset_other _ _ _ _ _ ht]

theorem add_value_presence (st : FieldStats) (v : String) :
    (st.add_value v).presence_count = st.presence_count := by
  unfold FieldStats.add_value
  by_cases h : st.frozen
  · simp [h]
  · by_cases h2 : st.values.length < MAX_UNIQUE <;> simp [h, h2]

theorem stepRel_guard (stats : FieldStats) (seen : List String) (key : String) :
    StepRel stats seen key (stats, seen) :=
  Or.inl ⟨rfl, rfl⟩

theorem pfv_step (v : FV) (path : String) (stats : FieldStats)
    (seen : List String) (seg : String) :
    StepRel stats seen (seg ++ "." ++ path)
      (process_field_value v path stats seen seg) := by
  by_cases hf : stats.frozen = true
  · have hr : process_field_value v path stats seen seg = (stats, seen) := by
      simp [process_field_value, hf]
    rw [hr]
    exact stepRel_guard _ _ _
  · by_cases hn : normalize_value v = ""
    · have hr : process_field_value v path stats seen seg = (stats, seen) := by
        simp [process_field_value, hf, hn]
      rw [hr]
      exact stepRel_guard _ _ _
    · by_cases hmem : (seg ++ "." ++ path) ∈ seen
      · have hr : process_field_value v path stats seen seg =
            (stats.add_value (normalize_value v), seen) := by
          simp [process_field_value, hf, hn, hmem]
        rw [hr]
        exact Or.inl ⟨rfl, add_value_presence _ _⟩
      · have hr : process_field_value v path stats seen seg =
            (stats.mark_present.add_value (normalize_value v),
              seen ++ [seg ++ "." ++ path]) := by
          simp [process_field_value, hf, hn, hmem]
        rw [hr]
        refine Or.inr ⟨hmem, rfl, ?_⟩
        rw [add_value_presence]
        rfl

theorem stepRel_comp (s0 : FieldStats) (e0 : List String) (key : String)
    (mid r : FieldStats × List String)
    (h1 : StepRel s0 e0 key mid) (h2 : StepRel mid.1 mid.2 key r) :
    StepRel s0 e0 key r := by
  rcases h1 with ⟨he1, hp1⟩ | ⟨hk1, he1, hp1⟩
  · rcases h2 with ⟨he2, hp2⟩ | ⟨hk2, he2, hp2⟩
    · exact Or.inl ⟨by rw [he2, he1], by rw [hp2, hp1]⟩
    · exact Or.inr ⟨by rw [he1] at hk2; exact hk2, by rw [he2, he1],
        by rw [hp2, hp1]⟩
  · rcases h2 with ⟨he2, hp2⟩ | ⟨hk2, he2, hp2⟩
    · exact Or.inr ⟨hk1, by rw [he2, he1], by rw [hp2, hp1]⟩
    · exfalso
      apply hk2
      rw [he1]
      exact List.mem_append_right _ (List.mem_singleton.mpr rfl)

theorem pccc_fold_step (path seg : String) (rs : List FV) :
    ∀ (stats : FieldStats) (seen : List String)
      (st : FieldStats × List String),
      StepRel stats seen (seg ++ "." ++ path) st →
      StepRel stats seen (seg ++ "." ++ path)
        (rs.foldl
          (fun (st : FieldStats × List String) rep =>
            let collapsed := collapse_complex_components rep
            if collapsed ≠ "" then
              process_field_value (.s collapsed) path st.1 st.2 seg
            else st)
          st) := by
  induction rs with
  | nil => intro stats seen st h; exact h
  | cons rep rs ih =>
    intro stats seen st h
    rw [List.foldl_cons]
    apply ih
    show StepRel stats seen (seg ++ "." ++ path)
      (if collapse_complex_components rep ≠ "" then
        process_field_value (.s (collapse_complex_components rep)) path
          st.1 st.2 seg
      else st)
    by_cases hc : collapse_complex_components rep ≠ ""
    · rw [if_pos hc]
      exact stepRel_comp _ _ _ st _ h (pfv_step _ _ _ _ _)
    · rw [if_neg hc]
      exact h

theorem pccc_step (v : FV) (path : String) (stats : FieldStats)
    (seen : List String) (seg : String) :
    StepRel stats seen (seg ++ "." ++ path)
      (process_complex_field_collapsed v path stats seen seg) := by
  rcases v with w | rs
  · show StepRel stats seen (seg ++ "." ++ path)
      (if collapse_complex_components (FV.s w) ≠ "" then
        process_field_value (.s (collapse_complex_components (FV.s w))) path
          stats seen seg
      else (stats, seen))
    by_cases hc : collapse_complex_components (FV.s w) ≠ ""
    · rw [if_pos hc]
      exact pfv_step _ _ _ _ _
    · rw [if_neg hc]
      exact stepRel_guard _ _ _
  · show StepRel stats seen (seg ++ "." ++ path)
      (if rs.all (fun r => match r with | .l _ => true | .s _ => false) = true
      then rs.foldl
          (fun (st : FieldStats × List String) rep =>
            let collapsed := collapse_complex_components rep
            if collapsed ≠ "" then
              process_field_value (.s collapsed) path st.1 st.2 seg
            else st)
          (stats, seen)
      else
        if collapse_complex_components (FV.l rs) ≠ "" then
          process_field_value (.s (collapse_complex_components (FV.l rs)))
            path stats seen seg
        else (stats, seen))
    by_cases hall : rs.all (fun r => match r with | .l _ => true | .s _ => false) = true
    · rw [if_pos hall]
      exact pccc_fold_step path seg rs stats seen (stats, seen)
        (stepRel_guard _ _ _)
    · rw [if_neg hall]
      by_cases hc : collapse_complex_components (FV.l rs) ≠ ""
      · rw [if_pos hc]
        exact pfv_step _ _ _ _ _
      · rw [if_neg hc]
        exact stepRel_guard _ _ _

theorem presInv_refl (fs : FSTree) : PresInv fs fs [] := by
  intro t s p
  simp

theorem presInv_update (fs0 fs : FSTree) (seen : List String)
    (t0 s0 p0 : String) (r : FieldStats × List String)
    (hP : PresInv fs0 fs seen)
    (hr : StepRel (fsGet fs t0 s0 p0) seen (s0 ++ "." ++ p0) r) :
    PresInv fs0 (fsSet fs t0 s0 p0 r.1) r.2 := by
  intro t s p
  by_cases heq : t0 = t ∧ s0 = s ∧ p0 = p
  · obtain ⟨h1, h2, h3⟩ := heq
    subst h1; subst h2; subst h3
    rw [fsGet_fsSet_self]
    rcases hr with ⟨he, hp⟩ | ⟨hk, he, hp⟩
    · rw [hp, he]
      exact hP t0 s0 p0
    · rw [hp, he]
      have hb := hP t0 s0 p0
      rw [if_neg hk] at hb
      have : (s0 ++ "." ++ p0) ∈ seen ++ [s0 ++ "." ++ p0] :=
        List.mem_append_right _ (List.mem_singleton.mpr rfl)
      rw [if_pos this]
      omega
  · rw [fsGet_fsSet_other _ _ _ _ _ _ _ _ heq]
    have hb := hP t s p
    have hmono : ((s ++ "." ++ p) ∈ seen) → ((s ++ "." ++ p) ∈ r.2) := by
      intro hm
      rcases hr with ⟨he, _⟩ | ⟨_, he, _⟩
      · rwa [he]
      · rw [he]; exact List.mem_append_left _ hm
    by_cases hm : (s ++ "." ++ p) ∈ seen
    · rw [if_pos hm] at hb
      rw [if_pos (hmono hm)]
      exact hb
    · rw [if_neg hm] at hb
      by_cases hm2 : (s ++ "." ++ p) ∈ r.2
      · rw [if_pos hm2]; omega
      · rw [if_neg hm2]; exact hb

theorem foldl_preserve {β γ : Type} (P : β → Prop) (f : β → γ → β)
    (h : ∀ st x, P st → P (f st x)) :
    ∀ (l : List γ) (st : β), P st → P (l.foldl f st) := by
  intro l
  induction l with
  | nil => intro st hst; exact hst
  | cons x l ih => intro st hst; exact ih _ (h st x hst)

theorem presInv_processComponents (fs0 : FSTree) (comps : List FV)
    (base_path t s : String) (st : FSTree × List String)
    (hP : PresInv fs0 st.1 st.2) :
    PresInv fs0 (processComponents comps base_path t s st).1
      (processComponents comps base_path t s st).2 := by
  unfold processComponents
  refine foldl_preserve (fun (st : FSTree × List String) => PresInv fs0 st.1 st.2)
    _ ?_ _ _ hP
  intro st2 ic h2
  show PresInv fs0
    (if componentGuard ic.2 = true then
      (fsSet st2.1 t s (base_path ++ "." ++ toString (ic.1 + 1))
        (process_field_value ic.2 (base_path ++ "." ++ toString (ic.1 + 1))
          (fsGet st2.1 t s (base_path ++ "." ++ toString (ic.1 + 1))) st2.2 s).1,
        (process_field_value ic.2 (base_path ++ "." ++ toString (ic.1 + 1))
          (fsGet st2.1 t s (base_path ++ "." ++ toString (ic.1 + 1))) st2.2 s).2)
    else st2).1
    (if componentGuard ic.2 = true then
      (fsSet st2.1 t s (base_path ++ "." ++ toString (ic.1 + 1))
        (process_field_value ic.2 (base_path ++ "." ++ toString (ic.1 + 1))
          (fsGet st2.1 t s (base_path ++ "." ++ toString (ic.1 + 1))) st2.2 s).1,
        (process_field_value ic.2 (base_path ++ "." ++ toString (ic.1 + 1))
          (fsGet st2.1 t s (base_path ++ "." ++ toString (ic.1 + 1))) st2.2 s).2)
    else st2).2
  cases hg : componentGuard ic.2 with
  | true => exact presInv_update _ _ _ _ _ _ _ h2 (pfv_step _ _ _ _ _)
  | false => exact h2

theorem presInv_bound (fs0 fs : FSTree) (seen : List String) (t s p : String)
    (h : PresInv fs0 fs seen) :
    (fsGet fs t s p).presence_count ≤
      (fsGet fs0 t s p).presence_count + 1 := by
  have hb := h t s p
  by_cases hm : (s ++ "." ++ p) ∈ seen
  · rw [if_pos hm] at hb
    exact hb
  · rw [if_neg hm] at hb
    omega

theorem presInv_pfuStep (fs0 : FSTree) (sb : Bool) (base_path t s : String)
    (st : FSTree × List String) (rep : FV) (hP : PresInv fs0 st.1 st.2) :
    PresInv fs0 (pfuStep sb base_path t s st rep).1
      (pfuStep sb base_path t s st rep).2 := by
  unfold pfuStep
  cases sb with
  | true =>
    rcases rep with w | comps
    · show PresInv fs0
        (if componentGuard (FV.s w) = true then
          (fsSet st.1 t s (base_path ++ ".1")
            (process_field_value (FV.s w) (base_path ++ ".1")
              (fsGet st.1 t s (base_path ++ ".1")) st.2 s).1,
            (process_field_value (FV.s w) (base_path ++ ".1")
              (fsGet st.1 t s (base_path ++ ".1")) st.2 s).2)
        else st).1
        (if componentGuard (FV.s w) = true then
          (fsSet st.1 t s (base_path ++ ".1")
            (process_field_value (FV.s w) (base_path ++ ".1")
              (fsGet st.1 t s (base_path ++ ".1")) st.2 s).1,
            (process_field_value (FV.s w) (base_path ++ ".1")
              (fsGet st.1 t s (base_path ++ ".1")) st.2 s).2)
        else st).2
      cases hg : componentGuard (FV.s w) with
      | true => exact presInv_update _ _ _ _ _ _ _ hP (pfv_step _ _ _ _ _)
      | false => exact hP
    · exact presInv_processComponents _ _ _ _ _ _ hP
  | false =>
    exact presInv_update _ _ _ _ _ _ _ hP (pfv_step _ _ _ _ _)

theorem presInv_pfu (V : Vocab) (fs0 : FSTree) (fv : FV)
    (base_path t s : String) (fs : FSTree) (seen : List String)
    (isRep : Bool) (cache : DCache) (hP : PresInv fs0 fs seen) :
    PresInv fs0 (process_field_unified V fv base_path fs t s seen isRep cache).1
      (process_field_unified V fv base_path fs t s seen isRep cache).2.1 := by
  unfold process_field_unified
  by_cases hx : ((cachedFieldDatatype V cache s base_path).1 = "XCN" ∨
      (cachedFieldDatatype V cache s base_path).1 = "PPN") ∧ isRep = false
  · rw [if_pos hx]
    exact presInv_update _ _ _ _ _ _ _ hP (pccc_step _ _ _ _ _)
  · rw [if_neg hx]
    exact foldl_preserve
      (fun (st : FSTree × List String) => PresInv fs0 st.1 st.2)
      (pfuStep _ base_path t s)
      (fun st2 rep h2 => presInv_pfuStep fs0 _ base_path t s st2 rep h2)
      _ (fs, seen) hP

theorem presInv_processField (V : Vocab) (fs0 : FSTree) (msg_type : String)
    (segment : Segment) (st : AggState × List String) (iv : Nat × FV)
    (hP : PresInv fs0 st.1.field_stats st.2) :
    PresInv fs0 (processField V msg_type segment st iv).1.field_stats
      (processField V msg_type segment st iv).2 := by
  unfold processField
  exact presInv_pfu _ _ _ _ _ _ _ _ _ _ hP

/-- C4: processing one message raises any single field's presence count by
at most one, whatever the starting state, vocabulary and cache: the
per-message seen-set is reset at message start and guards the increment. -/
theorem c4_presence_at_most_one_per_message (V : Vocab) (st : AggState)
    (msg : Message) (t s p : String) :
    (fsGet (processMessage V st msg).field_stats t s p).presence_count ≤
      (fsGet st.field_stats t s p).presence_count + 1 := by
  unfold processMessage
  have h := foldl_preserve
    (fun (acc : AggState × List String) =>
      PresInv st.field_stats acc.1.field_stats acc.2)
    (fun acc segment => segment.fields.enum.foldl
      (processField V msg.message_type segment) acc)
    (fun acc segment h2 =>
      foldl_preserve
        (fun (acc : AggState × List String) =>
          PresInv st.field_stats acc.1.field_stats acc.2)
        (processField V msg.message_type segment)
        (fun acc2 iv h3 =>
          presInv_processField V st.field_stats msg.message_type segment
            acc2 iv h3)
        segment.fields.enum acc h2)
    msg.segments
    ({ st with
        totals_by_type := dset st.totals_by_type msg.message_type
          (dGetD st.totals_by_type msg.message_type 0 + 1) },
      ([] : List String))
    (presInv_refl st.field_stats)
  exact presInv_bound _ _ _ t s p h

theorem dlookup_split {κ α : Type} [DecidableEq κ] (d : List (κ × α)) (k : κ)
    (v : α) (h : dlookup d k = some v) :
    ∃ pre post, d = pre ++ (k, v) :: post ∧ ∀ q ∈ pre, q.1 ≠ k := by
  induction d with
  | nil => simp [dlookup] at h
  | cons p rest ih =>
    obtain ⟨k2, w⟩ := p
    by_cases hk : k2 = k
    · subst hk
      simp [dlookup] at h
      subst h
      exact ⟨[], rest, rfl, by simp⟩
    · simp only [dlookup, hk, if_false] at h
      obtain ⟨pre, post, heq, hpre⟩ := ih h
      refine ⟨(k2, w) :: pre, post, by rw [heq]; rfl, ?_⟩
      intro q hq
      rcases List.mem_cons.mp hq with hq | hq
      · rw [hq]; exact hk
      · exact hpre q hq

theorem dlookup_dpop_other {κ α : Type} [DecidableEq κ] (d : List (κ × α))
    (k k2 : κ) (h : k ≠ k2) : dlookup (dpop d k2) k = dlookup d k := by
  induction d with
  | nil => simp [dpop]
  | cons p rest ih =>
    obtain ⟨k3, w⟩ := p
    by_cases h3 : k3 = k2
    · subst h3
      have hk : ¬ (k3 = k) := fun hh => h hh.symm
      simp [dpop, dlookup, hk]
    · simp only [dpop, h3, if_false, dlookup]
      by_cases hk : k3 = k
      · simp [hk, dlookup]
      · simp [hk, ih, dlookup]

theorem dlookup_dpop_self {κ α : Type} [DecidableEq κ] (d : List (κ × α))
    (k : κ) (hnd : (d.map Prod.fst).Nodup) : dlookup (dpop d k) k = none := by
  induction d with
  | nil => simp [dpop, dlookup]
  | cons p rest ih =>
    obtain ⟨k2, w⟩ := p
    simp only [List.map_cons, List.nodup_cons] at hnd
    by_cases h2 : k2 = k
    · subst h2
      simp only [dpop, if_pos rfl]
      cases hl : dlookup rest k2 with
      | none => exact hl
      | some v =>
        exfalso
        obtain ⟨pre, post, heq, -⟩ := dlookup_split rest k2 v hl
        apply hnd.1
        rw [heq]
        simp
    · simp only [dpop, h2, if_false, dlookup, h2]
      exact ih hnd.2

theorem dset_map_fst_of_mem {κ α : Type} [DecidableEq κ] (d : List (κ × α))
    (k : κ) (v : α) (h : (dlookup d k).isSome) :
    (dset d k v).map Prod.fst = d.map Prod.fst := by
  induction d with
  | nil => simp [dlookup] at h
  | cons p rest ih =>
    obtain ⟨k2, w⟩ := p
    by_cases h2 : k2 = k
    · subst h2; simp [dset]
    · simp only [dlookup, h2, if_false] at h
      simp [dset, h2, ih h]

theorem mem_of_dlookup {κ α : Type} [DecidableEq κ] (d : List (κ × α)) (k : κ)
    (v : α) (h : dlookup d k = some v) : (k, v) ∈ d := by
  obtain ⟨pre, post, heq, -⟩ := dlookup_split d k v h
  rw [heq]
  simp

theorem dlookup_of_mem {κ α : Type} [DecidableEq κ] (d : List (κ × α))
    (g : κ × α) (hm : g ∈ d) (hnd : (d.map Prod.fst).Nodup) :
    dlookup d g.1 = some g.2 := by
  induction d with
  | nil => simp at hm
  | cons p rest ih =>
    simp only [List.map_cons, List.nodup_cons] at hnd
    rcases List.mem_cons.mp hm with hm1 | hm2
    · subst hm1
      simp [dlookup]
    · obtain ⟨k2, w⟩ := p
      by_cases h2 : k2 = g.1
      · exfalso
        apply hnd.1
        rw [h2]
        exact List.mem_map.mpr ⟨g, hm2, rfl⟩
      · simp only [dlookup, h2, if_false]
        exact ih hm2 hnd.2

theorem string_mk_data (s : String) : String.mk s.data = s := rfl

theorem takeWhile_all_append (p : Char → Bool) (l1 l2 : List Char)
    (h : ∀ c ∈ l1, p c = true) :
    (l1 ++ l2).takeWhile p = l1 ++ l2.takeWhile p := by
  induction l1 with
  | nil => simp
  | cons c l1 ih =>
    have hc : p c = true := h c (List.mem_cons_self _ _)
    simp only [List.cons_append, List.takeWhile_cons, hc, if_true]
    rw [ih (fun c hc2 => h c (List.mem_cons_of_mem _ hc2))]

theorem takeWhile_all (p : Char → Bool) (l : List Char)
    (h : ∀ c ∈ l, p c = true) : l.takeWhile p = l := by
  induction l with
  | nil => rfl
  | cons c l ih =>
    simp only [List.takeWhile_cons, h c (List.mem_cons_self _ _), if_true]
    rw [ih (fun c hc => h c (List.mem_cons_of_mem _ hc))]

theorem baseOf_append_dot (b x : String) (hb : ∀ c ∈ b.data, ¬ c = '.') :
    baseOf (b ++ "." ++ x) = b := by
  unfold baseOf
  have hd : (b ++ "." ++ x).data = b.data ++ ('.' :: x.data) := by
    simp [String.data_append]
  rw [hd, takeWhile_all_append _ _ _
    (fun c hc => by simp [hb c hc])]
  have hdot : (fun c => !(c == '.')) '.' = false := by decide
  simp only [List.takeWhile_cons, hdot, Bool.false_eq_true, if_false,
    List.append_nil]

theorem baseOf_noDot (b : String) (hb : ∀ c ∈ b.data, ¬ c = '.') :
    baseOf b = b := by
  unfold baseOf
  rw [takeWhile_all _ _ (fun c hc => by simp [hb c hc])]

theorem isPrefixOf_append_self (l r : List Char) :
    l.isPrefixOf (l ++ r) = true := by
  induction l with
  | nil => simp [List.isPrefixOf]
  | cons c l ih => simp [List.isPrefixOf, ih]

theorem pyEndsWith_append (b suf : String) :
    pyEndsWith (b ++ suf) suf = true := by
  unfold pyEndsWith List.isSuffixOf
  rw [String.data_append, List.reverse_append]
  exact isPrefixOf_append_self _ _

theorem dlookup_append_some {κ α : Type} [DecidableEq κ]
    (l1 l2 : List (κ × α)) (k : κ) (v : α) (h : dlookup l1 k = some v) :
    dlookup (l1 ++ l2) k = some v := by
  induction l1 with
  | nil => simp [dlookup] at h
  | cons p rest ih =>
    by_cases hk : p.1 = k
    · obtain ⟨k2, w⟩ := p
      simp only [dlookup] at h ⊢
      simp only at hk
      simp [hk] at h ⊢
      exact h
    · obtain ⟨k2, w⟩ := p
      simp only at hk
      simp only [dlookup, hk, if_false] at h ⊢
      exact ih h

theorem dlookup_append_none {κ α : Type} [DecidableEq κ]
    (l1 l2 : List (κ × α)) (k : κ) (h : dlookup l1 k = none) :
    dlookup (l1 ++ l2) k = dlookup l2 k := by
  induction l1 with
  | nil => rfl
  | cons p rest ih =>
    obtain ⟨k2, w⟩ := p
    by_cases hk : k2 = k
    · simp [dlookup, hk] at h
    · simp only [dlookup, hk, if_false] at h
      simp only [List.cons_append, dlookup, hk, if_false]
      exact ih h

theorem dlookup_eq_none_iff {κ α : Type} [DecidableEq κ]
    (d : List (κ × α)) (k : κ) :
    dlookup d k = none ↔ k ∉ d.map Prod.fst := by
  induction d with
  | nil => simp [dlookup]
  | cons p rest ih =>
    obtain ⟨k2, w⟩ := p
    by_cases hk : k2 = k
    · simp [dlookup, hk]
    · simp [dlookup, hk, ih, Ne.symm hk]

theorem nodup_dset {κ α : Type} [DecidableEq κ] (d : List (κ × α)) (k : κ)
    (v : α) (h : (d.map Prod.fst).Nodup) :
    ((dset d k v).map Prod.fst).Nodup := by
  cases hl : dlookup d k with
  | some w =>
    rwa [dset_map_fst_of_mem _ _ _ (by simp [hl])]
  | none =>
    have hk : k ∉ d.map Prod.fst := (dlookup_eq_none_iff d k).mp hl
    have : (dset d k v).map Prod.fst = d.map Prod.fst ++ [k] := by
      clear h
      induction d with
      | nil => rfl
      | cons p rest ih =>
        obtain ⟨k2, w2⟩ := p
        by_cases h2 : k2 = k
        · simp [dlookup, h2] at hl
        · simp only [dlookup, h2, if_false] at hl
          simp only [List.map_cons, List.mem_cons] at hk
          push_neg at hk
          simp [dset, h2, ih hl hk.2]
    rw [this]
    simp only [List.nodup_append, List.nodup_cons]
    refine ⟨h, by simp, ?_⟩
    intro a ha hb
    simp at hb
    subst hb
    exact hk ha

theorem nodup_dpop {κ α : Type} [DecidableEq κ] (d : List (κ × α)) (k : κ)
    (h : (d.map Prod.fst).Nodup) : ((dpop d k).map Prod.fst).Nodup := by
  induction d with
  | nil => simp [dpop]
  | cons p rest ih =>
    obtain ⟨k2, w⟩ := p
    simp only [List.map_cons, List.nodup_cons] at h
    by_cases h2 : k2 = k
    · simp only [dpop, h2, if_pos rfl]
      exact h.2
    · simp only [dpop, h2, if_false, List.map_cons, List.nodup_cons]
      refine ⟨?_, ih h.2⟩
      intro hmem
      apply h.1
      have : (dpop rest k).map Prod.fst ⊆ rest.map Prod.fst := by
        clear * -
        induction rest with
        | nil => simp [dpop]
        | cons q rest ih =>
          obtain ⟨k3, w3⟩ := q
          by_cases h3 : k3 = k
          · simp only [dpop, h3, if_pos rfl]
            exact fun a ha => List.mem_cons_of_mem _ ha
          · simp only [dpop, h3, if_false, List.map_cons]
            intro a ha
            rcases List.mem_cons.mp ha with ha | ha
            · exact ha ▸ List.mem_cons_self _ _
            · exact List.mem_cons_of_mem _ (ih ha)
      exact this hmem

theorem sadd_mem (s : List String) (y x : String) :
    x ∈ sadd s y ↔ x ∈ s ∨ x = y := by
  unfold sadd
  by_cases hy : y ∈ s
  · simp only [hy, if_true]
    constructor
    · exact Or.inl
    · rintro (h | h)
      · exact h
      · exact h ▸ hy
  · simp [hy]

theorem mem_foldl_sadd (l : List String) :
    ∀ (init : List String) (x : String),
      x ∈ l.foldl sadd init ↔ x ∈ init ∨ x ∈ l := by
  induction l with
  | nil => simp
  | cons y l ih =>
    intro init x
    rw [List.foldl_cons, ih, sadd_mem]
    constructor
    · rintro ((h | h) | h)
      · exact Or.inl h
      · exact Or.inr (h ▸ List.mem_cons_self _ _)
      · exact Or.inr (List.mem_cons_of_mem _ h)
    · rintro (h | h)
      · exact Or.inl (Or.inl h)
      · rcases List.mem_cons.mp h with h | h
        · exact Or.inl (Or.inr h)
        · exact Or.inr h

theorem foldl_sadd_all_eq (x : String) (l : List String)
    (h : ∀ p ∈ l, p = x) : ∀ init, init = [x] → l.foldl sadd init = [x] := by
  induction l with
  | nil => intro init hi; exact hi
  | cons y l ih =>
    intro init hi
    subst hi
    have hy : y = x := h y (List.mem_cons_self _ _)
    subst hy
    rw [List.foldl_cons]
    have : sadd [y] y = [y] := by simp [sadd]
    rw [this]
    exact ih (fun p hp => h p (List.mem_cons_of_mem _ hp)) [y] rfl

/-- C8: on a zero-message input the profiler returns empty structures (no
patterns, empty per-segment map, total 0); no percentage is ever computed
since there is no pattern entry to carry one. -/
theorem c8_zero_messages :
    profile_sequences_for_type [] =
      { common_sequences := [], segments := [], total_messages := 0 } ∧
    profile_sequences_by_message_type [] = [] := by
  constructor <;> rfl

theorem string_data_ext (a b : String) (h : a.data = b.data) : a = b := by
  rw [← string_mk_data a, ← string_mk_data b, h]

theorem append_dot1 (b : String) : b ++ "." ++ "1" = b ++ ".1" := by
  apply string_data_ext
  simp [String.data_append]

theorem append_dot2 (b : String) : b ++ "." ++ "2" = b ++ ".2" := by
  apply string_data_ext
  simp [String.data_append]

theorem baseOf_dot1 (b : String) (hb : ∀ c ∈ b.data, ¬ c = '.') :
    baseOf (b ++ ".1") = b := by
  rw [← append_dot1]
  exact baseOf_append_dot b "1" hb

theorem baseOf_dot2 (b : String) (hb : ∀ c ∈ b.data, ¬ c = '.') :
    baseOf (b ++ ".2") = b := by
  rw [← append_dot2]
  exact baseOf_append_dot b "2" hb

theorem ne_append_dot1 (b : String) : b ≠ b ++ ".1" := by
  intro h
  have h2 : b.data.length = (b.data ++ ".1".data).length := by
    rw [← String.data_append, ← h]
  rw [List.length_append] at h2
  have h3 : ".1".data.length = 2 := rfl
  omega

theorem ne_append_dot2 (b : String) : b ≠ b ++ ".2" := by
  intro h
  have h2 : b.data.length = (b.data ++ ".2".data).length := by
    rw [← String.data_append, ← h]
  rw [List.length_append] at h2
  have h3 : ".2".data.length = 2 := rfl
  omega

theorem append_dot1_ne_dot2 (b : String) : b ++ ".1" ≠ b ++ ".2" := by
  intro h
  have h2 : b.data ++ ".1".data = b.data ++ ".2".data := by
    rw [← String.data_append, ← String.data_append, h]
  have h3 := List.append_cancel_left h2
  have h4 : ".1".data = ['.', '1'] := rfl
  have h5 : ".2".data = ['.', '2'] := rfl
  rw [h4, h5] at h3
  simp at h3

theorem baseOf_dotfree (p : String) : ∀ c ∈ (baseOf p).data, ¬ c = '.' := by
  intro c hc
  have hc2 : c ∈ p.data.takeWhile (fun c => !(c == '.')) := hc
  have h := List.mem_takeWhile_imp hc2
  simp at h
  exact h

theorem cachedFieldDatatype_fst (V : Vocab) (c : DCache) (seg path : String)
    (hs : SoundCache V c) :
    (cachedFieldDatatype V c seg path).1 = field_datatype V seg path := by
  unfold cachedFieldDatatype
  cases hl : dlookup c.dt (seg, path) with
  | none => rfl
  | some v => exact hs.1 (seg, path) v hl

theorem cachedFieldDatatype_sound (V : Vocab) (c : DCache) (seg path : String)
    (hs : SoundCache V c) :
    SoundCache V (cachedFieldDatatype V c seg path).2 := by
  unfold cachedFieldDatatype
  cases hl : dlookup c.dt (seg, path) with
  | some v => exact hs
  | none =>
    refine ⟨?_, hs.2⟩
    intro k v hk
    by_cases hkk : (seg, path) = k
    · subst hkk
      rw [dlookup_dset_self] at hk
      injection hk with hk
      exact hk.symm
    · rw [dlookup_dset_other _ _ _ _ hkk] at hk
      exact hs.1 k v hk

theorem is_complex_type_fst (V : Vocab) (c : DCache) (t : String)
    (hs : SoundCache V c) :
    (is_complex_type V c t).1 = V.isComplexOf t := by
  unfold is_complex_type
  cases hl : dlookup c.cx t with
  | none => rfl
  | some b => exact hs.2 t b hl

theorem is_complex_type_sound (V : Vocab) (c : DCache) (t : String)
    (hs : SoundCache V c) :
    SoundCache V (is_complex_type V c t).2 := by
  unfold is_complex_type
  cases hl : dlookup c.cx t with
  | some b => exact hs
  | none =>
    refine ⟨hs.1, ?_⟩
    intro k b hk
    by_cases hkk : t = k
    · subst hkk
      rw [dlookup_dset_self] at hk
      injection hk with hk
      exact hk.symm
    · rw [dlookup_dset_other _ _ _ _ hkk] at hk
      exact hs.2 k b hk

theorem groupComponents_eq_foldl (fields : Dict (List (String × Nat))) :
    groupComponents fields = fields.foldl gcStep [] := rfl

theorem gcSpec_cons_false (p : String) (keys : List String) (q : String)
    (h : (baseOf p == q) = false) : gcSpec (p :: keys) q = gcSpec keys q := by
  simp [gcSpec, List.filter_cons, h]

theorem gc_go (l : List (String × List (String × Nat))) :
    ∀ (acc : List (String × List String)) (q : String),
      dlookup (l.foldl gcStep acc) q =
        match dlookup acc q with
        | some ps =>
            some (((l.map Prod.fst).filter (fun p => baseOf p == q)).foldl
              sadd ps)
        | none => gcSpec (l.map Prod.fst) q := by
  induction l with
  | nil =>
    intro acc q
    cases h : dlookup acc q with
    | some ps => simpa using h
    | none => simpa [gcSpec] using h
  | cons kv l ih =>
    intro acc q
    obtain ⟨p, cnt⟩ := kv
    rw [List.foldl_cons, ih]
    by_cases hpq : baseOf p = q
    · subst hpq
      have hpp : (baseOf p == baseOf p) = true := by simp
      cases hacc : dlookup acc (baseOf p) with
      | some ps =>
        have hstep : gcStep acc (p, cnt) = dset acc (baseOf p) (sadd ps p) := by
          simp [gcStep, hacc]
        rw [hstep, dlookup_dset_self]
        simp only [List.map_cons, List.filter_cons, hpp, if_true,
          List.foldl_cons]
      | none =>
        have hstep : gcStep acc (p, cnt) = acc ++ [(baseOf p, [p])] := by
          simp [gcStep, hacc]
        have hone : dlookup [(baseOf p, [p])] (baseOf p) = some [p] := by
          simp [dlookup]
        rw [hstep, dlookup_append_none _ _ _ hacc, hone]
        have hsn : sadd [] p = [p] := by simp [sadd]
        simp only [gcSpec, List.map_cons, List.filter_cons, hpp, if_true]
        rw [if_neg (by simp)]
        rw [List.foldl_cons, hsn]
    · have hfb : (baseOf p == q) = false := by simp [hpq]
      have hstep_lookup : dlookup (gcStep acc (p, cnt)) q = dlookup acc q := by
        cases hacc : dlookup acc (baseOf p) with
        | some ps =>
          simp only [gcStep, hacc]
          exact dlookup_dset_other _ _ _ _ hpq
        | none =>
          simp only [gcStep, hacc]
          cases haq : dlookup acc q with
          | some v => rw [dlookup_append_some _ _ _ _ haq]
          | none =>
            rw [dlookup_append_none _ _ _ haq]
            simp [dlookup, hpq]
      rw [hstep_lookup]
      simp only [List.map_cons, List.filter_cons, hfb, Bool.false_eq_true,
        if_false, gcSpec_cons_false _ _ _ hfb]

theorem groupComponents_lookup (fields : Dict (List (String × Nat)))
    (q : String) :
    dlookup (groupComponents fields) q = gcSpec (fields.map Prod.fst) q := by
  rw [groupComponents_eq_foldl, gc_go]
  rfl

theorem gcStep_nodup (acc : List (String × List String))
    (kv : String × List (String × Nat))
    (h : (acc.map Prod.fst).Nodup) : ((gcStep acc kv).map Prod.fst).Nodup := by
  obtain ⟨p, cnt⟩ := kv
  cases hacc : dlookup acc (baseOf p) with
  | some ps =>
    simp only [gcStep, hacc]
    exact nodup_dset _ _ _ h
  | none =>
    simp only [gcStep, hacc]
    have hnm : baseOf p ∉ acc.map Prod.fst := (dlookup_eq_none_iff _ _).mp hacc
    rw [List.map_append]
    refine h.append (by simp) ?_
    intro a ha hb
    simp at hb
    subst hb
    exact hnm ha

theorem groupComponents_nodup (fields : Dict (List (String × Nat))) :
    ((groupComponents fields).map Prod.fst).Nodup := by
  rw [groupComponents_eq_foldl]
  have hmain : ∀ (l : List (String × List (String × Nat)))
      (acc : List (String × List String)), (acc.map Prod.fst).Nodup →
      (((l.foldl gcStep acc).map Prod.fst)).Nodup := by
    intro l
    induction l with
    | nil => intro acc h; exact h
    | cons kv l ih => intro acc h; exact ih _ (gcStep_nodup acc kv h)
  exact hmain fields [] (by simp)

theorem gcSpec_mem (keys : List String) (q : String) (ps : List String)
    (x : String) (h : gcSpec keys q = some ps) (hx : x ∈ keys)
    (hbx : baseOf x = q) : x ∈ ps := by
  unfold gcSpec at h
  by_cases hfl : keys.filter (fun p => baseOf p == q) = []
  · rw [if_pos hfl] at h
    exact absurd h (by simp)
  · rw [if_neg hfl] at h
    injection h with h
    rw [← h]
    exact (mem_foldl_sadd _ _ _).mpr
      (Or.inr (List.mem_filter.mpr ⟨hx, by simp [hbx]⟩))

theorem groupComponents_member (fields : Dict (List (String × Nat)))
    (g : String × List String) (hm : g ∈ groupComponents fields) :
    (∀ x ∈ g.2, baseOf x = g.1) ∧ (∀ c ∈ g.1.data, ¬ c = '.') ∧ g.2 ≠ [] := by
  have hnd := groupComponents_nodup fields
  have hl := dlookup_of_mem _ _ hm hnd
  rw [groupComponents_lookup] at hl
  unfold gcSpec at hl
  cases hfl : (fields.map Prod.fst).filter (fun p => baseOf p == g.1) with
  | nil => rw [if_pos hfl] at hl; exact absurd hl (by simp)
  | cons p0 rest =>
    rw [if_neg (by rw [hfl]; simp)] at hl
    rw [hfl] at hl
    injection hl with hl
    have hg2 : g.2 = (p0 :: rest).foldl sadd [] := hl.symm
    have hp0f : p0 ∈ (fields.map Prod.fst).filter (fun p => baseOf p == g.1) := by
      rw [hfl]
      exact List.mem_cons_self _ _
    have hp0 : baseOf p0 = g.1 := by
      have h2 := (List.mem_filter.mp hp0f).2
      simpa using h2
    refine ⟨?_, ?_, ?_⟩
    · intro x hx
      rw [hg2] at hx
      rcases (mem_foldl_sadd _ _ _).mp hx with h | h
      · simp at h
      · have hxf : x ∈ (fields.map Prod.fst).filter
            (fun p => baseOf p == g.1) := by
          rw [hfl]
          exact h
        have h2 := (List.mem_filter.mp hxf).2
        simpa using h2
    · rw [← hp0]
      exact baseOf_dotfree p0
    · rw [hg2]
      intro hnil
      have hmem : p0 ∈ (p0 :: rest).foldl sadd [] :=
        (mem_foldl_sadd _ _ _).mpr (Or.inr (List.mem_cons_self _ _))
      rw [hnil] at hmem
      simp at hmem

theorem foldl_sadd_nil_all_eq (x : String) (l : List String) (hne : l ≠ [])
    (h : ∀ p ∈ l, p = x) : l.foldl sadd [] = [x] := by
  cases l with
  | nil => exact absurd rfl hne
  | cons y rest =>
    have hy : y = x := h y (List.mem_cons_self _ _)
    subst hy
    rw [List.foldl_cons]
    have hsn : sadd [] y = [y] := by simp [sadd]
    rw [hsn]
    exact foldl_sadd_all_eq y rest
      (fun p hp => h p (List.mem_cons_of_mem _ hp)) [y] rfl

theorem groupComponents_lookup_single (fields : Dict (List (String × Nat)))
    (b : String) (cnt : List (String × Nat))
    (hbdot : ∀ c ∈ b.data, ¬ c = '.')
    (H1 : ∀ p ∈ fields.map Prod.fst, baseOf p = b → p = b ++ ".1")
    (hf : dlookup fields (b ++ ".1") = some cnt) :
    dlookup (groupComponents fields) b = some [b ++ ".1"] := by
  rw [groupComponents_lookup]
  have hb1mem : (b ++ ".1") ∈ fields.map Prod.fst :=
    List.mem_map.mpr ⟨_, mem_of_dlookup _ _ _ hf, rfl⟩
  have hb1base : baseOf (b ++ ".1") = b := baseOf_dot1 b hbdot
  have hmemfl : (b ++ ".1") ∈
      (fields.map Prod.fst).filter (fun p => baseOf p == b) :=
    List.mem_filter.mpr ⟨hb1mem, by simp [hb1base]⟩
  have hall : ∀ p ∈ (fields.map Prod.fst).filter (fun p => baseOf p == b),
      p = b ++ ".1" := by
    intro p hp
    have h1 := (List.mem_filter.mp hp).1
    have h2 := (List.mem_filter.mp hp).2
    exact H1 p h1 (by simpa using h2)
  have hne : (fields.map Prod.fst).filter (fun p => baseOf p == b) ≠ [] := by
    intro h
    rw [h] at hmemfl
    simp at hmemfl
  unfold gcSpec
  rw [if_neg hne]
  exact congrArg some (foldl_sadd_nil_all_eq _ _ hne hall)

theorem consolidateGroup_eq (V : Vocab) (s : String)
    (fields : Dict (List (String × Nat))) (presInner : Dict Nat)
    (cache : DCache) (g1 : String) (g2 : List String) :
    consolidateGroup V s (fields, presInner, cache) (g1, g2) =
      (if (cachedFieldDatatype V cache s g1).1 ∈ consolidateExcluded then
        (fields, presInner, (cachedFieldDatatype V cache s g1).2)
      else if g2.length = 1 ∧ pyEndsWith (g2.headD "") ".1" then
        match dlookup fields (g2.headD "") with
        | some cnt =>
          if cnt ≠ [] then
            (dset (dpop fields (g2.headD "")) g1 cnt,
              dset (dpop presInner (g2.headD "")) g1
                (dGetD presInner (g2.headD "") 0),
              (cachedFieldDatatype V cache s g1).2)
          else (fields, presInner, (cachedFieldDatatype V cache s g1).2)
        | none => (fields, presInner, (cachedFieldDatatype V cache s g1).2)
      else (fields, presInner, (cachedFieldDatatype V cache s g1).2)) := rfl

theorem consolidateGroup_inert (V : Vocab) (s b : String)
    (fields : Dict (List (String × Nat))) (presInner : Dict Nat)
    (cache : DCache) (g1 : String) (g2 : List String)
    (hg1 : g1 ≠ b) (hg1dot : ∀ c ∈ g1.data, ¬ c = '.')
    (hgp : ∀ x ∈ g2, baseOf x = g1) :
    ∀ q, baseOf q = b →
      dlookup (consolidateGroup V s (fields, presInner, cache) (g1, g2)).1 q =
          dlookup fields q ∧
      dlookup (consolidateGroup V s (fields, presInner, cache) (g1, g2)).2.1 q =
          dlookup presInner q := by
  intro q hq
  rw [consolidateGroup_eq]
  by_cases h1 : (cachedFieldDatatype V cache s g1).1 ∈ consolidateExcluded
  · rw [if_pos h1]
    exact ⟨rfl, rfl⟩
  · rw [if_neg h1]
    by_cases h2 : g2.length = 1 ∧ pyEndsWith (g2.headD "") ".1" = true
    · rw [if_pos h2]
      obtain ⟨hlen, -⟩ := h2
      obtain ⟨x, hx⟩ := List.length_eq_one.mp hlen
      have hhead : g2.headD "" = x := by rw [hx]; rfl
      have hxq : x ≠ q := by
        intro he
        have hbx : baseOf x = g1 := hgp x (by rw [hx]; exact List.mem_cons_self _ _)
        have hg1b : g1 = b := by rw [← hbx, he]; exact hq
        exact hg1 hg1b
      have hgq : g1 ≠ q := by
        intro he
        have hg1b : g1 = b := by
          rw [← baseOf_noDot g1 hg1dot, he]
          exact hq
        exact hg1 hg1b
      rw [hhead]
      cases hfx : dlookup fields x with
      | none => exact ⟨rfl, rfl⟩
      | some cnt =>
        dsimp only
        by_cases hc : cnt ≠ []
        · rw [if_pos hc]
          refine ⟨?_, ?_⟩
          · rw [dlookup_dset_other _ _ _ _ hgq,
              dlookup_dpop_other _ _ _ (fun hh => hxq hh.symm)]
          · rw [dlookup_dset_other _ _ _ _ hgq,
              dlookup_dpop_other _ _ _ (fun hh => hxq hh.symm)]
        · rw [if_neg hc]
          exact ⟨rfl, rfl⟩
    · rw [if_neg h2]
      exact ⟨rfl, rfl⟩

theorem consolidateGroup_sound_nodup (V : Vocab) (s : String)
    (fields : Dict (List (String × Nat))) (presInner : Dict Nat)
    (cache : DCache) (g1 : String) (g2 : List String)
    (hs : SoundCache V cache) (hnf : (fields.map Prod.fst).Nodup)
    (hnp : (presInner.map Prod.fst).Nodup) :
    SoundCache V (consolidateGroup V s (fields, presInner, cache) (g1, g2)).2.2 ∧
    ((consolidateGroup V s (fields, presInner, cache) (g1, g2)).1.map
      Prod.fst).Nodup ∧
    ((consolidateGroup V s (fields, presInner, cache) (g1, g2)).2.1.map
      Prod.fst).Nodup := by
  rw [consolidateGroup_eq]
  have hs2 := cachedFieldDatatype_sound V cache s g1 hs
  by_cases h1 : (cachedFieldDatatype V cache s g1).1 ∈ consolidateExcluded
  · rw [if_pos h1]
    exact ⟨hs2, hnf, hnp⟩
  · rw [if_neg h1]
    by_cases h2 : g2.length = 1 ∧ pyEndsWith (g2.headD "") ".1" = true
    · rw [if_pos h2]
      cases hfx : dlookup fields (g2.headD "") with
      | none => exact ⟨hs2, hnf, hnp⟩
      | some cnt =>
        dsimp only
        by_cases hc : cnt ≠ []
        · rw [if_pos hc]
          exact ⟨hs2, nodup_dset _ _ _ (nodup_dpop _ _ hnf),
            nodup_dset _ _ _ (nodup_dpop _ _ hnp)⟩
        · rw [if_neg hc]
          exact ⟨hs2, hnf, hnp⟩
    · rw [if_neg h2]
      exact ⟨hs2, hnf, hnp⟩

theorem consolidateFold_safe (V : Vocab) (s b : String)
    (gl : List (String × List String)) :
    (∀ g ∈ gl, (g.1 ≠ b ∧ (∀ c ∈ g.1.data, ¬ c = '.') ∧
        (∀ x ∈ g.2, baseOf x = g.1)) ∨ g.2.length ≠ 1) →
    ∀ (fields : Dict (List (String × Nat))) (presInner : Dict Nat)
      (cache : DCache), SoundCache V cache → (fields.map Prod.fst).Nodup →
      (presInner.map Prod.fst).Nodup →
      SoundCache V
        (gl.foldl (consolidateGroup V s) (fields, presInner, cache)).2.2 ∧
      ((gl.foldl (consolidateGroup V s)
        (fields, presInner, cache)).1.map Prod.fst).Nodup ∧
      ((gl.foldl (consolidateGroup V s)
        (fields, presInner, cache)).2.1.map Prod.fst).Nodup ∧
      ∀ q, baseOf q = b →
        dlookup (gl.foldl (consolidateGroup V s)
            (fields, presInner, cache)).1 q = dlookup fields q ∧
        dlookup (gl.foldl (consolidateGroup V s)
            (fields, presInner, cache)).2.1 q = dlookup presInner q := by
  induction gl with
  | nil =>
    intro hin fields presInner cache hs hnf hnp
    exact ⟨hs, hnf, hnp, fun q hq => ⟨rfl, rfl⟩⟩
  | cons g gl ih =>
    intro hin fields presInner cache hs hnf hnp
    obtain ⟨g1, g2⟩ := g
    rw [List.foldl_cons]
    obtain ⟨hs1, hnf1, hnp1⟩ :=
      consolidateGroup_sound_nodup V s fields presInner cache g1 g2 hs hnf hnp
    have hkey : ∀ q, baseOf q = b →
        dlookup (consolidateGroup V s (fields, presInner, cache) (g1, g2)).1 q =
            dlookup fields q ∧
        dlookup
            (consolidateGroup V s (fields, presInner, cache) (g1, g2)).2.1 q =
          dlookup presInner q := by
      rcases hin (g1, g2) (List.mem_cons_self _ _) with hinert | hlen
      · exact consolidateGroup_inert V s b fields presInner cache g1 g2
          hinert.1 hinert.2.1 hinert.2.2
      · intro q hq
        rw [consolidateGroup_eq]
        by_cases h1 : (cachedFieldDatatype V cache s g1).1 ∈ consolidateExcluded
        · rw [if_pos h1]
          exact ⟨rfl, rfl⟩
        · rw [if_neg h1, if_neg (fun hh => hlen hh.1)]
          exact ⟨rfl, rfl⟩
    have heta : consolidateGroup V s (fields, presInner, cache) (g1, g2) =
        ((consolidateGroup V s (fields, presInner, cache) (g1, g2)).1,
          (consolidateGroup V s (fields, presInner, cache) (g1, g2)).2.1,
          (consolidateGroup V s (fields, presInner, cache) (g1, g2)).2.2) := rfl
    rw [heta]
    have hmain := ih (fun g2 hg2 => hin g2 (List.mem_cons_of_mem _ hg2))
      (consolidateGroup V s (fields, presInner, cache) (g1, g2)).1
      (consolidateGroup V s (fields, presInner, cache) (g1, g2)).2.1
      (consolidateGroup V s (fields, presInner, cache) (g1, g2)).2.2
      hs1 hnf1 hnp1
    refine ⟨hmain.1, hmain.2.1, hmain.2.2.1, ?_⟩
    intro q hq
    obtain ⟨hq1, hq2⟩ := hmain.2.2.2 q hq
    obtain ⟨hk1, hk2⟩ := hkey q hq
    exact ⟨hq1.trans hk1, hq2.trans hk2⟩

theorem consolidateGroup_acts (V : Vocab) (s b : String)
    (fields : Dict (List (String × Nat))) (presInner : Dict Nat)
    (cache : DCache) (cnt : List (String × Nat)) (pv : Nat)
    (hs : SoundCache V cache)
    (hnotex : field_datatype V s b ∉ consolidateExcluded)
    (hf : dlookup fields (b ++ ".1") = some cnt) (hcnt : cnt ≠ [])
    (hp : dlookup presInner (b ++ ".1") = some pv) :
    consolidateGroup V s (fields, presInner, cache) (b, [b ++ ".1"]) =
      (dset (dpop fields (b ++ ".1")) b cnt,
        dset (dpop presInner (b ++ ".1")) b pv,
        (cachedFieldDatatype V cache s b).2) := by
  rw [consolidateGroup_eq]
  have hty : (cachedFieldDatatype V cache s b).1 = field_datatype V s b :=
    cachedFieldDatatype_fst V cache s b hs
  rw [if_neg (by rw [hty]; exact hnotex)]
  have hhead : ([b ++ ".1"] : List String).headD "" = b ++ ".1" := rfl
  rw [if_pos ⟨rfl, by rw [hhead]; exact pyEndsWith_append b ".1"⟩]
  rw [hhead, hf]
  dsimp only
  rw [if_pos hcnt]
  have hget : dGetD presInner (b ++ ".1") 0 = pv := by
    unfold dGetD
    rw [hp]
    rfl
  rw [hget]

theorem length_ne_one_of_two_mem (l : List String) (x y : String)
    (hx : x ∈ l) (hy : y ∈ l) (hxy : x ≠ y) : l.length ≠ 1 := by
  intro h
  obtain ⟨a, ha⟩ := List.length_eq_one.mp h
  rw [ha] at hx hy
  simp at hx hy
  exact hxy (hx.trans hy.symm)

/-- C6: in `consolidate_single_component_fields`, over a segment bucket whose
field dicts have duplicate-free keys and a sound datatype cache, a dot-free
base field `b` recorded only as its `.1` component with non-empty data and
presence, whose datatype is not in the excluded always-composite list, is
renamed to the bare base path in both the value tree and the presence table
(the `.1` key is discarded); and whenever a `.2` component of `b` was also
observed in the bucket, `b`, `b.1` and `b.2` are all left untouched in both
tables. -/
theorem c6_consolidation (V : Vocab) (s b : String)
    (fields : Dict (List (String × Nat))) (presInner : Dict Nat)
    (cache : DCache) (cnt : List (String × Nat)) (pv : Nat)
    (hs : SoundCache V cache)
    (hbdot : ∀ c ∈ b.data, ¬ c = '.')
    (hnf : (fields.map Prod.fst).Nodup)
    (hnp : (presInner.map Prod.fst).Nodup)
    (hf : dlookup fields (b ++ ".1") = some cnt)
    (hcnt : cnt ≠ [])
    (hp : dlookup presInner (b ++ ".1") = some pv) :
    (field_datatype V s b ∉ consolidateExcluded →
      (∀ p ∈ fields.map Prod.fst, baseOf p = b → p = b ++ ".1") →
      dlookup (consolidateBucket V s fields presInner cache).1 b = some cnt ∧
      dlookup (consolidateBucket V s fields presInner cache).1
          (b ++ ".1") = none ∧
      dlookup (consolidateBucket V s fields presInner cache).2.1 b = some pv ∧
      dlookup (consolidateBucket V s fields presInner cache).2.1
          (b ++ ".1") = none) ∧
    ((b ++ ".2") ∈ fields.map Prod.fst →
      dlookup (consolidateBucket V s fields presInner cache).1 b =
          dlookup fields b ∧
      dlookup (consolidateBucket V s fields presInner cache).1
          (b ++ ".1") = some cnt ∧
      dlookup (consolidateBucket V s fields presInner cache).1
          (b ++ ".2") = dlookup fields (b ++ ".2") ∧
      dlookup (consolidateBucket V s fields presInner cache).2.1 b =
          dlookup presInner b ∧
      dlookup (consolidateBucket V s fields presInner cache).2.1
          (b ++ ".1") = some pv) := by
  have hb1base : baseOf (b ++ ".1") = b := baseOf_dot1 b hbdot
  have hb2base : baseOf (b ++ ".2") = b := baseOf_dot2 b hbdot
  have hbbase : baseOf b = b := baseOf_noDot b hbdot
  have hcb : consolidateBucket V s fields presInner cache =
      (groupComponents fields).foldl (consolidateGroup V s)
        (fields, presInner, cache) := rfl
  constructor
  · intro hnotex H1
    have hgcb := groupComponents_lookup_single fields b cnt hbdot H1 hf
    obtain ⟨pre, post, hsplit, hpre⟩ := dlookup_split _ _ _ hgcb
    have hnd := groupComponents_nodup fields
    rw [hsplit] at hnd
    simp only [List.map_append, List.map_cons] at hnd
    have hbpost : b ∉ post.map Prod.fst := by
      have h2 := (List.nodup_append.mp hnd).2.1
      exact (List.nodup_cons.mp h2).1
    have hprein : ∀ g ∈ pre, (g.1 ≠ b ∧ (∀ c ∈ g.1.data, ¬ c = '.') ∧
        (∀ x ∈ g.2, baseOf x = g.1)) ∨ g.2.length ≠ 1 := by
      intro g hg
      left
      have hgm : g ∈ groupComponents fields := by
        rw [hsplit]
        exact List.mem_append_left _ hg
      have hprops := groupComponents_member fields g hgm
      exact ⟨hpre g hg, hprops.2.1, hprops.1⟩
    have hpostin : ∀ g ∈ post, (g.1 ≠ b ∧ (∀ c ∈ g.1.data, ¬ c = '.') ∧
        (∀ x ∈ g.2, baseOf x = g.1)) ∨ g.2.length ≠ 1 := by
      intro g hg
      left
      have hgm : g ∈ groupComponents fields := by
        rw [hsplit]
        exact List.mem_append_right _ (List.mem_cons_of_mem _ hg)
      have hprops := groupComponents_member fields g hgm
      refine ⟨?_, hprops.2.1, hprops.1⟩
      intro he
      exact hbpost (List.mem_map.mpr ⟨g, hg, he⟩)
    have hfold : consolidateBucket V s fields presInner cache =
        post.foldl (consolidateGroup V s)
          (consolidateGroup V s
            (pre.foldl (consolidateGroup V s) (fields, presInner, cache))
            (b, [b ++ ".1"])) := by
      rw [hcb, hsplit, List.foldl_append, List.foldl_cons]
    obtain ⟨hs1, hnf1, hnp1, hlook1⟩ :=
      consolidateFold_safe V s b pre hprein fields presInner cache hs hnf hnp
    set st1 := pre.foldl (consolidateGroup V s) (fields, presInner, cache)
      with hst1
    have hf1 : dlookup st1.1 (b ++ ".1") = some cnt := by
      rw [(hlook1 _ hb1base).1]
      exact hf
    have hp1 : dlookup st1.2.1 (b ++ ".1") = some pv := by
      rw [(hlook1 _ hb1base).2]
      exact hp
    have heta : st1 = (st1.1, st1.2.1, st1.2.2) := rfl
    have hacts := consolidateGroup_acts V s b st1.1 st1.2.1 st1.2.2 cnt pv
      hs1 hnotex hf1 hcnt hp1
    obtain ⟨-, -, -, hlook3⟩ := consolidateFold_safe V s b post hpostin
      (dset (dpop st1.1 (b ++ ".1")) b cnt)
      (dset (dpop st1.2.1 (b ++ ".1")) b pv)
      (cachedFieldDatatype V st1.2.2 s b).2
      (cachedFieldDatatype_sound V st1.2.2 s b hs1)
      (nodup_dset _ _ _ (nodup_dpop _ _ hnf1))
      (nodup_dset _ _ _ (nodup_dpop _ _ hnp1))
    rw [hfold, heta, hacts]
    refine ⟨?_, ?_, ?_, ?_⟩
    · rw [(hlook3 b hbbase).1, dlookup_dset_self]
    · rw [(hlook3 _ hb1base).1,
        dlookup_dset_other _ _ _ _ (ne_append_dot1 b),
        dlookup_dpop_self _ _ hnf1]
    · rw [(hlook3 b hbbase).2, dlookup_dset_self]
    · rw [(hlook3 _ hb1base).2,
        dlookup_dset_other _ _ _ _ (ne_append_dot1 b),
        dlookup_dpop_self _ _ hnp1]
  · intro hb2
    have hb1mem : (b ++ ".1") ∈ fields.map Prod.fst :=
      List.mem_map.mpr ⟨_, mem_of_dlookup _ _ _ hf, rfl⟩
    have hin : ∀ g ∈ groupComponents fields, (g.1 ≠ b ∧
        (∀ c ∈ g.1.data, ¬ c = '.') ∧ (∀ x ∈ g.2, baseOf x = g.1)) ∨
        g.2.length ≠ 1 := by
      intro g hg
      have hprops := groupComponents_member fields g hg
      by_cases hgb : g.1 = b
      · right
        have hl := dlookup_of_mem _ _ hg (groupComponents_nodup fields)
        rw [groupComponents_lookup, hgb] at hl
        have h1m : (b ++ ".1") ∈ g.2 := gcSpec_mem _ _ _ _ hl hb1mem hb1base
        have h2m : (b ++ ".2") ∈ g.2 := gcSpec_mem _ _ _ _ hl hb2 hb2base
        exact length_ne_one_of_two_mem _ _ _ h1m h2m (append_dot1_ne_dot2 b)
      · exact Or.inl ⟨hgb, hprops.2.1, hprops.1⟩
    obtain ⟨-, -, -, hlook⟩ := consolidateFold_safe V s b
      (groupComponents fields) hin fields presInner cache hs hnf hnp
    rw [hcb]
    refine ⟨(hlook b hbbase).1, ?_, (hlook _ hb2base).1,
      (hlook b hbbase).2, ?_⟩
    · rw [(hlook _ hb1base).1]
      exact hf
    · rw [(hlook _ hb1base).2]
      exact hp

theorem c6_witness :
    dlookup (consolidateBucket ⟨fun _ => "CE", fun _ => false⟩ "OBX"
        [("5.1", [("v", 1)])] [("5.1", 3)] DCache.empty).1 "5" =
      some [("v", 1)] ∧
    dlookup (consolidateBucket ⟨fun _ => "CE", fun _ => false⟩ "OBX"
        [("5.1", [("v", 1)])] [("5.1", 3)] DCache.empty).1 "5.1" = none ∧
    dlookup (consolidateBucket ⟨fun _ => "CE", fun _ => false⟩ "OBX"
        [("5.1", [("v", 1)])] [("5.1", 3)] DCache.empty).2.1 "5" = some 3 ∧
    dlookup (consolidateBucket ⟨fun _ => "CE", fun _ => false⟩ "OBX"
        [("5.1", [("v", 1)])] [("5.1", 3)] DCache.empty).2.1 "5.1" = none := by
  have h := (c6_consolidation ⟨fun _ => "CE", fun _ => false⟩ "OBX" "5"
      [("5.1", [("v", 1)])] [("5.1", 3)] DCache.empty [("v", 1)] 3
      ⟨fun k v hk => by simp [dlookup] at hk,
        fun k r hk => by simp [dlookup] at hk⟩
      (by decide) (by decide) (by decide) (by decide) (by decide)
      (by decide)).1 (by decide) (by decide)
  have he : ("5" : String) ++ ".1" = "5.1" := by decide
  rw [he] at h
  exact h

theorem foldl_rel {α β : Type} (R : α → α → Prop) (f : α → β → α)
    (h : ∀ a b x, R a b → R (f a x) (f b x)) :
    ∀ (l : List β) (a b : α), R a b → R (l.foldl f a) (l.foldl f b) := by
  intro l
  induction l with
  | nil => intro a b hab; exact hab
  | cons x l ih => intro a b hab; exact ih _ _ (h a b x hab)

theorem process_field_unified_eq (V : Vocab) (fv : FV) (bp : String)
    (fs : FSTree) (t s : String) (seen : List String) (rep : Bool)
    (c : DCache) :
    process_field_unified V fv bp fs t s seen rep c =
      (if ((cachedFieldDatatype V c s bp).1 = "XCN" ∨
          (cachedFieldDatatype V c s bp).1 = "PPN") ∧ rep = false then
        (fsSet fs t s bp
            (process_complex_field_collapsed fv bp (fsGet fs t s bp) seen s).1,
          (process_complex_field_collapsed fv bp (fsGet fs t s bp) seen s).2,
          (cachedFieldDatatype V c s bp).2)
      else
        (((if rep then
              match fv with
              | .l vs => vs
              | .s v => [FV.s v]
            else [fv]).foldl
            (pfuStep (is_complex_type V (cachedFieldDatatype V c s bp).2
              (cachedFieldDatatype V c s bp).1).1 bp t s) (fs, seen)).1,
          ((if rep then
              match fv with
              | .l vs => vs
              | .s v => [FV.s v]
            else [fv]).foldl
            (pfuStep (is_complex_type V (cachedFieldDatatype V c s bp).2
              (cachedFieldDatatype V c s bp).1).1 bp t s) (fs, seen)).2,
          (is_complex_type V (cachedFieldDatatype V c s bp).2
            (cachedFieldDatatype V c s bp).1).2)) := rfl

theorem process_field_unified_det (V : Vocab) (fv : FV) (bp : String)
    (fs : FSTree) (t s : String) (seen : List String) (rep : Bool)
    (c c2 : DCache) (hs : SoundCache V c) (hs2 : SoundCache V c2) :
    (process_field_unified V fv bp fs t s seen rep c).1 =
        (process_field_unified V fv bp fs t s seen rep c2).1 ∧
    (process_field_unified V fv bp fs t s seen rep c).2.1 =
        (process_field_unified V fv bp fs t s seen rep c2).2.1 ∧
    SoundCache V (process_field_unified V fv bp fs t s seen rep c).2.2 ∧
    SoundCache V (process_field_unified V fv bp fs t s seen rep c2).2.2 := by
  rw [process_field_unified_eq, process_field_unified_eq]
  have e1 : (cachedFieldDatatype V c s bp).1 = field_datatype V s bp :=
    cachedFieldDatatype_fst V c s bp hs
  have e2 : (cachedFieldDatatype V c2 s bp).1 = field_datatype V s bp :=
    cachedFieldDatatype_fst V c2 s bp hs2
  have s1 : SoundCache V (cachedFieldDatatype V c s bp).2 :=
    cachedFieldDatatype_sound V c s bp hs
  have s2 : SoundCache V (cachedFieldDatatype V c2 s bp).2 :=
    cachedFieldDatatype_sound V c2 s bp hs2
  rw [e1, e2]
  by_cases hcond :
      (field_datatype V s bp = "XCN" ∨ field_datatype V s bp = "PPN") ∧
        rep = false
  · rw [if_pos hcond, if_pos hcond]
    exact ⟨rfl, rfl, s1, s2⟩
  · rw [if_neg hcond, if_neg hcond]
    have f1 := is_complex_type_fst V (cachedFieldDatatype V c s bp).2
      (field_datatype V s bp) s1
    have f2 := is_complex_type_fst V (cachedFieldDatatype V c2 s bp).2
      (field_datatype V s bp) s2
    rw [f1, f2]
    exact ⟨rfl, rfl, is_complex_type_sound V _ _ s1,
      is_complex_type_sound V _ _ s2⟩

theorem processField_rel (V : Vocab) (t : String) (seg : Segment)
    (a b : AggState × List String) (iv : Nat × FV) (hab : PFRel V a b) :
    PFRel V (processField V t seg a iv) (processField V t seg b iv) := by
  obtain ⟨⟨f, rt, tt, c⟩, seen⟩ := a
  obtain ⟨⟨f2, rt2, tt2, c2⟩, seen2⟩ := b
  obtain ⟨hfs, hrt, htt, hsn, hca, hcb⟩ := hab
  dsimp only at hfs hrt htt hsn hca hcb
  subst hfs hrt htt hsn
  obtain ⟨e1, e2, s1, s2⟩ := process_field_unified_det V iv.2
    (toString (iv.1 + 1)) f t seg.name seen
    (decide (toString (iv.1 + 1) ∈ seg.repeating_fields)) c c2 hca hcb
  unfold processField
  dsimp only
  exact ⟨e1, rfl, rfl, e2, s1, s2⟩

theorem processMessage_rel (V : Vocab) (m : Message) (a b : AggState)
    (hab : AggSRel V a b) :
    AggSRel V (processMessage V a m) (processMessage V b m) := by
  obtain ⟨f, rt, tt, c⟩ := a
  obtain ⟨f2, rt2, tt2, c2⟩ := b
  obtain ⟨hfs, hrt, htt, hca, hcb⟩ := hab
  dsimp only at hfs hrt htt hca hcb
  subst hfs hrt htt
  unfold processMessage
  dsimp only
  have hr := foldl_rel (PFRel V)
    (fun acc segment => segment.fields.enum.foldl
      (processField V m.message_type segment) acc)
    (fun x y seg hxy => foldl_rel (PFRel V)
      (processField V m.message_type seg)
      (fun x y iv hxy => processField_rel V m.message_type seg x y iv hxy)
      seg.fields.enum x y hxy)
    m.segments
    (⟨f, rt, dset tt m.message_type (dGetD tt m.message_type 0 + 1), c⟩,
      ([] : List String))
    (⟨f, rt, dset tt m.message_type (dGetD tt m.message_type 0 + 1), c2⟩,
      ([] : List String))
    ⟨rfl, rfl, rfl, rfl, hca, hcb⟩
  exact ⟨hr.1, hr.2.1, hr.2.2.1, hr.2.2.2.2.1, hr.2.2.2.2.2⟩

theorem aggFold_rel (V : Vocab) (msgs : List (Option Message))
    (c1 c2 : DCache) (h1 : SoundCache V c1) (h2 : SoundCache V c2) :
    AggSRel V (aggFold V msgs c1) (aggFold V msgs c2) := by
  unfold aggFold
  exact foldl_rel (AggSRel V) _
    (fun a b m? hab => by
      cases m? with
      | none => exact hab
      | some m => exact processMessage_rel V m a b hab)
    msgs _ _ ⟨rfl, rfl, rfl, h1, h2⟩

theorem consolidateGroup_rel (V : Vocab) (s : String)
    (a b : Dict (List (String × Nat)) × Dict Nat × DCache)
    (g : String × List String) (hab : BucketRel V a b) :
    BucketRel V (consolidateGroup V s a g) (consolidateGroup V s b g) := by
  obtain ⟨fa, pa, ca⟩ := a
  obtain ⟨fb, pb, cb⟩ := b
  obtain ⟨g1, g2⟩ := g
  obtain ⟨hf, hp, hca, hcb⟩ := hab
  dsimp only at hf hp hca hcb
  subst hf hp
  have e1 : (cachedFieldDatatype V ca s g1).1 = field_datatype V s g1 :=
    cachedFieldDatatype_fst V ca s g1 hca
  have e2 : (cachedFieldDatatype V cb s g1).1 = field_datatype V s g1 :=
    cachedFieldDatatype_fst V cb s g1 hcb
  have s1 := cachedFieldDatatype_sound V ca s g1 hca
  have s2 := cachedFieldDatatype_sound V cb s g1 hcb
  rw [consolidateGroup_eq, consolidateGroup_eq, e1, e2]
  by_cases h1 : field_datatype V s g1 ∈ consolidateExcluded
  · rw [if_pos h1, if_pos h1]
    exact ⟨rfl, rfl, s1, s2⟩
  · rw [if_neg h1, if_neg h1]
    by_cases h2 : g2.length = 1 ∧ pyEndsWith (g2.headD "") ".1" = true
    · rw [if_pos h2, if_pos h2]
      cases hd : dlookup fa (g2.headD "") with
      | none => exact ⟨rfl, rfl, s1, s2⟩
      | some cnt =>
        dsimp only
        by_cases hc : cnt ≠ []
        · rw [if_pos hc, if_pos hc]
          exact ⟨rfl, rfl, s1, s2⟩
        · rw [if_neg hc, if_neg hc]
          exact ⟨rfl, rfl, s1, s2⟩
    · rw [if_neg h2, if_neg h2]
      exact ⟨rfl, rfl, s1, s2⟩

theorem consolidateBucket_rel (V : Vocab) (s : String)
    (f : Dict (List (String × Nat))) (p : Dict Nat) (c1 c2 : DCache)
    (h1 : SoundCache V c1) (h2 : SoundCache V c2) :
    BucketRel V (consolidateBucket V s f p c1) (consolidateBucket V s f p c2) := by
  unfold consolidateBucket
  exact foldl_rel (BucketRel V) (consolidateGroup V s)
    (fun a b g hab => consolidateGroup_rel V s a b g hab)
    (groupComponents f) _ _ ⟨rfl, rfl, h1, h2⟩

theorem consolidate_det (V : Vocab) (sp : Spec) (pr : Pres) (c1 c2 : DCache)
    (h1 : SoundCache V c1) (h2 : SoundCache V c2) :
    (consolidate_single_component_fields V sp pr c1).1 =
        (consolidate_single_component_fields V sp pr c2).1 ∧
    (consolidate_single_component_fields V sp pr c1).2.1 =
        (consolidate_single_component_fields V sp pr c2).2.1 := by
  unfold consolidate_single_component_fields
  have hmain := foldl_rel (ConsRel V)
    (fun (acc : Spec × Pres × DCache) tEntry =>
      tEntry.2.foldl
        (fun (acc : Spec × Pres × DCache) sEntry =>
          let (sp, pr, cache) := acc
          let curFields := dGetD (dGetD sp tEntry.1 []) sEntry.1 []
          let curPres := dGetD (dGetD pr tEntry.1 []) sEntry.1 []
          let r := consolidateBucket V sEntry.1 curFields curPres cache
          (specSetBucket sp tEntry.1 sEntry.1 r.1,
            presSetBucket pr tEntry.1 sEntry.1 r.2.1, r.2.2))
        acc)
    (fun a b tE hab => foldl_rel (ConsRel V) _
      (fun x y sE hxy => by
        obtain ⟨spa, pra, ca⟩ := x
        obtain ⟨spb, prb, cb⟩ := y
        obtain ⟨hsp, hpr, hca, hcb⟩ := hxy
        dsimp only at hsp hpr hca hcb
        subst hsp hpr
        dsimp only
        obtain ⟨hb1, hb2, hs1, hs2⟩ := consolidateBucket_rel V sE.1
          (dGetD (dGetD spa tE.1 []) sE.1 [])
          (dGetD (dGetD pra tE.1 []) sE.1 []) ca cb hca hcb
        exact ⟨by rw [hb1], by rw [hb2], hs1, hs2⟩)
      tE.2 a b hab)
    sp (sp, pr, c1) (sp, pr, c2) ⟨rfl, rfl, h1, h2⟩
  exact ⟨hmain.1, hmain.2.1⟩

theorem aggregate_data_eq (V : Vocab) (msgs : List (Option Message))
    (cache : DCache) :
    aggregate_data V msgs cache =
      ({ spec := (consolidate_single_component_fields V
            (buildSpec (aggFold V msgs cache).field_stats).1
            (buildSpec (aggFold V msgs cache).field_stats).2
            (aggFold V msgs cache).cache).1,
         repeats := (aggFold V msgs cache).repeat_tracker,
         presence := (consolidate_single_component_fields V
            (buildSpec (aggFold V msgs cache).field_stats).1
            (buildSpec (aggFold V msgs cache).field_stats).2
            (aggFold V msgs cache).cache).2.1,
         total := msgs.length,
         totals_by_type := (aggFold V msgs cache).totals_by_type,
         sequence_profiles_by_type :=
           profile_sequences_by_message_type msgs },
       (consolidate_single_component_fields V
          (buildSpec (aggFold V msgs cache).field_stats).1
          (buildSpec (aggFold V msgs cache).field_stats).2
          (aggFold V msgs cache).cache).2.2) := rfl

/-- C9: aggregation and sequence profiling are deterministic in the input
order: on the same ordered message list, two runs of `aggregate_data` that
start from any sound datatype caches (in particular the same cache, or a
cold versus a warm one) produce the identical output record — the same
value counters, presence table, repeat tracker, per-category totals and
sequence profiles; all variation must come from the message list itself. -/
theorem c9_determinism (V : Vocab) (msgs : List (Option Message))
    (c1 c2 : DCache) (h1 : SoundCache V c1) (h2 : SoundCache V c2) :
    (aggregate_data V msgs c1).1 = (aggregate_data V msgs c2).1 := by
  rw [aggregate_data_eq, aggregate_data_eq]
  obtain ⟨hfs, hrt, htt, hs1, hs2⟩ := aggFold_rel V msgs c1 c2 h1 h2
  dsimp only
  rw [hfs, hrt, htt]
  obtain ⟨hc1, hc2⟩ := consolidate_det V
    (buildSpec (aggFold V msgs c2).field_stats).1
    (buildSpec (aggFold V msgs c2).field_stats).2
    (aggFold V msgs c1).cache (aggFold V msgs c2).cache hs1 hs2
  rw [hc1, hc2]

theorem c9_witness :
    (aggregate_data ⟨fun _ => "CX", fun _ => false⟩
        [some ⟨"ADT", [⟨"PID", [FV.s "x"], []⟩]⟩] DCache.empty).1 =
      (aggregate_data ⟨fun _ => "CX", fun _ => false⟩
        [some ⟨"ADT", [⟨"PID", [FV.s "x"], []⟩]⟩]
        ⟨[(("PID", "3"), "CX")], []⟩).1 :=
  c9_determinism ⟨fun _ => "CX", fun _ => false⟩
    [some ⟨"ADT", [⟨"PID", [FV.s "x"], []⟩]⟩]
    DCache.empty ⟨[(("PID", "3"), "CX")], []⟩
    ⟨fun k v hk => by simp [dlookup] at hk,
      fun k r hk => by simp [dlookup] at hk⟩
    ⟨fun k v hk => by
        by_cases h : ("PID", "3") = k
        · simp [dlookup, h] at hk
          exact hk.symm
        · simp [dlookup, h] at hk,
      fun k r hk => by simp [dlookup] at hk⟩

theorem c3_counterexample :
    (profile_sequences_for_type
        [seqMsg "T" ["A", "A"], seqMsg "T" ["A+"]]).total_messages = 2 ∧
    sumCounts (profile_sequences_for_type
        [seqMsg "T" ["A", "A"], seqMsg "T" ["A+"]]).common_sequences = 1 := by
  constructor <;> rfl

/-- C3 (amended): each merge target's count is exact: a `merge_similar_patterns`
scan returns its seed count plus the sum of the counts of precisely the
not-yet-processed entries it folded in (a subsequence of the remaining list,
each marked processed exactly once) — but the corpus-level claim that the
final pattern counts always sum to the category total is false, because both
the annotation dict and the merged dict are written by plain key assignment
and a key collision silently drops the earlier count
(`c3_counterexample`). -/
theorem c3_merge_target_sums (sp : Dict SegPresence) (tm : Nat)
    (p1 : List String) :
    ∀ (rest : List (List String × Nat)) (processed : List (List String))
      (mp : List String) (mc : Nat),
      ∃ newly : List (List String × Nat),
        newly.Sublist rest ∧
        (∀ q ∈ newly, q.1 ∉ processed) ∧
        (mergeScan sp tm p1 rest processed mp mc).2.2 =
          processed ++ newly.map Prod.fst ∧
        (mergeScan sp tm p1 rest processed mp mc).2.1 = mc + sumVals newly := by
  intro rest
  induction rest with
  | nil =>
    intro processed mp mc
    exact ⟨[], List.nil_sublist _, by simp, by simp [mergeScan],
      by simp [mergeScan, sumVals]⟩
  | cons q rest ih =>
    intro processed mp mc
    obtain ⟨p2, c2⟩ := q
    by_cases hin : p2 ∈ processed
    · obtain ⟨newly, hsub, hnp, hproc, hcount⟩ := ih processed mp mc
      have hstep : mergeScan sp tm p1 ((p2, c2) :: rest) processed mp mc =
          mergeScan sp tm p1 rest processed mp mc := by
        simp [mergeScan, hin]
      exact ⟨newly, hsub.cons _, hnp, by rw [hstep]; exact hproc,
        by rw [hstep]; exact hcount⟩
    · cases ht : try_merge_patterns p1 p2 sp tm with
      | none =>
        obtain ⟨newly, hsub, hnp, hproc, hcount⟩ := ih processed mp mc
        have hstep : mergeScan sp tm p1 ((p2, c2) :: rest) processed mp mc =
            mergeScan sp tm p1 rest processed mp mc := by
          simp [mergeScan, hin, ht]
        exact ⟨newly, hsub.cons _, hnp, by rw [hstep]; exact hproc,
          by rw [hstep]; exact hcount⟩
      | some mp2 =>
        by_cases he : mp2.isEmpty
        · obtain ⟨newly, hsub, hnp, hproc, hcount⟩ := ih processed mp mc
          have hstep : mergeScan sp tm p1 ((p2, c2) :: rest) processed mp mc =
              mergeScan sp tm p1 rest processed mp mc := by
            simp [mergeScan, hin, ht, he]
          exact ⟨newly, hsub.cons _, hnp, by rw [hstep]; exact hproc,
            by rw [hstep]; exact hcount⟩
        · have hstep : mergeScan sp tm p1 ((p2, c2) :: rest) processed mp mc =
              mergeScan sp tm p1 rest (processed ++ [p2]) mp2 (mc + c2) := by
            simp [mergeScan, hin, ht, he]
          obtain ⟨newly, hsub, hnp, hproc, hcount⟩ :=
            ih (processed ++ [p2]) mp2 (mc + c2)
          refine ⟨(p2, c2) :: newly, hsub.cons₂ _, ?_, ?_, ?_⟩
          · intro q hq
            rcases List.mem_cons.mp hq with hq | hq
            · subst hq
              simpa using hin
            · intro hc
              exact hnp q hq (List.mem_append_left _ hc)
          · rw [hstep, hproc]
            simp
          · rw [hstep, hcount]
            simp [sumVals]
            omega

end HL7Spec
